import Mathlib

/-!
Verification of the process-key-sender repository (Rust) against its
natural-language specification.

The Rust sources are shallowly embedded as follows.

* Rust strings are modelled as `List Char`.  The Rust helpers `str::trim`,
  `str::to_lowercase` (ASCII fragment; the configured key names and duration
  strings are ASCII), `str::ends_with`, `str::split` and `u64::from_str`
  are modelled by `rustTrim`, `rustToLowercase`, `rustEndsWith`, `splitChar`
  and `parseU64`.
* `std::time::Duration` values produced by `parse_duration` are always a
  whole number of milliseconds, so durations are modelled as `Nat`
  milliseconds.  `u64` arithmetic that can wrap (`mins * 60` in
  `parse_duration`) is taken modulo `2 ^ 64`, matching release-build
  semantics.
* The event loops of `src/main.rs` (`sequential_execution_loop`,
  `independent_key_task`, `find_target_process`) are embedded as
  fuel-indexed step functions over an environment of boolean/result streams
  (`running`, process liveness, `paused`, the outcome of each `send_key`
  call), one stream value per loop iteration; a returned trace records each
  `send_key` call together with the iteration at which it was made.
* The Windows key machinery of `src/key_sender.rs` is embedded with the
  virtual-key table built exactly as in `KeySender::new`, and the
  `SendInput` system call is abstracted by the number of input events the
  OS accepts (the real call returns how many events were inserted).
-/

namespace PKS

/-! ## Rust string primitives (modelled from std) -/

/-- Unicode `White_Space` code points, as used by Rust `char::is_whitespace`. -/
def isRustWhitespace (c : Char) : Bool :=
  (0x09 ≤ c.toNat && c.toNat ≤ 0x0D) || c.toNat == 0x20 || c.toNat == 0x85 ||
  c.toNat == 0xA0 || c.toNat == 0x1680 || (0x2000 ≤ c.toNat && c.toNat ≤ 0x200A) ||
  c.toNat == 0x2028 || c.toNat == 0x2029 || c.toNat == 0x202F || c.toNat == 0x205F ||
  c.toNat == 0x3000

/-- ASCII fragment of Rust `char::to_lowercase`; all key tables and duration
suffixes in the source are ASCII, and non-ASCII input matches no table entry
either way. -/
def asciiToLower (c : Char) : Char :=
  if 65 ≤ c.toNat ∧ c.toNat ≤ 90 then Char.ofNat (c.toNat + 32) else c

/-- Rust `str::trim`. -/
def rustTrim (s : List Char) : List Char :=
  ((s.dropWhile isRustWhitespace).reverse.dropWhile isRustWhitespace).reverse

/-- Rust `str::to_lowercase` (ASCII fragment). -/
def rustToLowercase (s : List Char) : List Char :=
  s.map asciiToLower

/-- Rust `str::ends_with` on a literal pattern. -/
def rustEndsWith (s pat : List Char) : Bool :=
  pat.reverse.isPrefixOf s.reverse

/-- Rust `str::split(sep)`: keeps empty segments, never returns an empty list. -/
def splitChar (sep : Char) : List Char → List (List Char)
  | [] => [[]]
  | c :: cs =>
    if c = sep then [] :: splitChar sep cs
    else
      match splitChar sep cs with
      | [] => [[c]]
      | p :: ps => (c :: p) :: ps

def isAsciiDigit (c : Char) : Bool :=
  decide (48 ≤ c.toNat ∧ c.toNat ≤ 57)

/-- Digit loop of Rust `u64::from_str`: fails on a non-digit or on overflow
past `u64::MAX`. -/
def parseDigitsU64 : List Char → Nat → Option Nat
  | [], acc => some acc
  | c :: cs, acc =>
    if isAsciiDigit c then
      if 10 * acc + (c.toNat - 48) < 2 ^ 64 then
        parseDigitsU64 cs (10 * acc + (c.toNat - 48))
      else none
    else none

/-- Rust `u64::from_str`: optional leading `+`, then at least one ASCII digit,
value bounded by `u64::MAX`. -/
def parseU64 (s : List Char) : Option Nat :=
  match s with
  | [] => none
  | c :: cs =>
    if c = '+' then (if cs = [] then none else parseDigitsU64 cs 0)
    else parseDigitsU64 (c :: cs) 0

/-- ASCII digit character for `d < 10`, as produced by Rust integer
formatting. -/
def digitChar (d : Nat) : Char := Char.ofNat (48 + d)

/-- Little-endian digit list of `n` (empty for `0`); the fuel argument makes
the recursion structural, `fuel = n` is always enough. -/
def toDigitsRevFuel : Nat → Nat → List Char
  | 0, _ => []
  | fuel + 1, n =>
    if n = 0 then [] else digitChar (n % 10) :: toDigitsRevFuel fuel (n / 10)

/-- Rust decimal formatting of an unsigned integer (`format!` / `to_string`). -/
def natToString (n : Nat) : List Char :=
  if n = 0 then ['0'] else (toDigitsRevFuel n n).reverse

/-- Value of a little-endian digit list. -/
def valLE : List Char → Nat
  | [] => 0
  | c :: cs => (c.toNat - 48) + 10 * valLE cs

/-! ## src/config.rs -/

/-- `config.rs`, `KeyAction`: one sequential step (`interval_after` in
milliseconds). -/
structure KeyAction where
  key : List Char
  interval_after : Nat
deriving DecidableEq, Repr

/-- `config.rs`, `IndependentKey`: one independent timer (`interval` in
milliseconds). -/
structure IndependentKey where
  key : List Char
  interval : Nat
deriving DecidableEq, Repr

/-- `config.rs`, `Config`. -/
structure Config where
  process_name : List Char
  key_sequence : List KeyAction
  independent_keys : List IndependentKey
  max_retries : Nat
  pause_hotkey : List Char
  verbose : Bool
  loop_sequence : Bool
  repeat_count : Nat
deriving DecidableEq, Repr

/-- `config.rs`, `parse_duration` (lines 48-73): trim, lowercase, then try the
suffixes `ms`, `s`, `m` in that order, else bare milliseconds.  Result in
milliseconds.  `mins * 60` is `u64` arithmetic, hence the `% 2 ^ 64`. -/
def parse_duration (s : List Char) : Option Nat :=
  let t := rustToLowercase (rustTrim s)
  if rustEndsWith t ['m', 's'] then
    parseU64 (t.take (t.length - 2))
  else if rustEndsWith t ['s'] then
    (parseU64 (t.take (t.length - 1))).map (fun secs => secs * 1000)
  else if rustEndsWith t ['m'] then
    (parseU64 (t.take (t.length - 1))).map (fun mins => (mins * 60 % 2 ^ 64) * 1000)
  else
    parseU64 s

/-- `config.rs`, `duration_to_string` (lines 204-214). -/
def duration_to_string (ms : Nat) : List Char :=
  if 60000 ≤ ms ∧ ms % 60000 = 0 then natToString (ms / 60000) ++ ['m']
  else if 1000 ≤ ms ∧ ms % 1000 = 0 then natToString (ms / 1000) ++ ['s']
  else natToString ms ++ ['m', 's']

/-- `config.rs`, `Config::validate` (lines 117-155), collapsed to a boolean
(the source bails with a message at the first violated check; `true` means
`Ok(())`).  `interval < 1` models `< Duration::from_millis(1)` on the
whole-millisecond durations produced by `parse_duration`. -/
def Config.validate (c : Config) : Bool :=
  if rustTrim c.process_name = [] then false
  else if c.key_sequence = [] ∧ c.independent_keys = [] then false
  else if c.key_sequence ≠ [] ∧ c.independent_keys ≠ [] then false
  else if c.max_retries = 0 then false
  else if c.key_sequence.any (fun ka => rustTrim ka.key == [] || decide (ka.interval_after < 1)) then false
  else if c.independent_keys.any (fun ik => rustTrim ik.key == [] || decide (ik.interval < 1)) then false
  else true

/-! ## src/key_sender.rs -/

/-- A synthetic keyboard event: `SendInput` with `dwFlags = 0` (down) or
`KEYEVENTF_KEYUP` (up), carrying the virtual-key code. -/
inductive KeyEvent where
  | down (vk : Nat)
  | up (vk : Nat)
deriving DecidableEq, Repr

/-- `key_sender.rs`, `KeySender::new` (lines 27-75): the virtual-key table,
with the same entries in the same groups (winapi constants: `VK_SPACE = 0x20`,
`VK_RETURN = 0x0D`, `VK_TAB = 0x09`, `VK_ESCAPE = 0x1B`, `VK_SHIFT = 0x10`,
`VK_CONTROL = 0x11`, `VK_MENU = 0x12`).  The source `HashMap` has no duplicate
keys, so an association list is equivalent. -/
def keyMapList : List (List Char × Nat) :=
  [("space".toList, 0x20), ("enter".toList, 0x0D), ("return".toList, 0x0D),
   ("tab".toList, 0x09), ("escape".toList, 0x1B), ("esc".toList, 0x1B),
   ("shift".toList, 0x10), ("ctrl".toList, 0x11), ("control".toList, 0x11),
   ("alt".toList, 0x12)]
  ++ ((List.range 12).map (fun i => ('f' :: natToString (i + 1), 0x70 + i)))
  ++ ((List.range 10).map (fun i => (natToString i, 0x30 + i)))
  ++ ((List.range 26).map (fun i => ([Char.ofNat (97 + i)], 0x41 + i)))
  ++ [("left".toList, 0x25), ("up".toList, 0x26), ("right".toList, 0x27),
      ("down".toList, 0x28), ("backspace".toList, 0x08), ("delete".toList, 0x2E),
      ("home".toList, 0x24), ("end".toList, 0x23), ("pageup".toList, 0x21),
      ("pagedown".toList, 0x22)]

/-- `key_sender.rs`, `parse_key_windows` (lines 360-369): lowercase, then look
the whole token up in the table; `none` is the `Unsupported key` error. -/
def parse_key_windows (key : List Char) : Option Nat :=
  List.lookup (rustToLowercase key) keyMapList

/-- Modifier-code loop of `send_key_combination_global_windows` (lines
273-276): resolve every token, failing on the first unknown one. -/
def parseAllKeys : List (List Char) → Option (List Nat)
  | [] => some []
  | k :: ks =>
    match parse_key_windows k with
    | none => none
    | some v => (parseAllKeys ks).map (fun vs => v :: vs)

/-- Parsing phase of `send_key_combination_global_windows` (lines 263-278):
split on `+`, trim each part, require at least two parts, resolve every
prefix token and the final token.  `none` covers both the
`Invalid key combination format` and the `Unsupported key` bailouts, all of
which happen before any event is built or emitted. -/
def parseComboWindows (combo : List Char) : Option (List Nat × Nat) :=
  let parts := (splitChar '+' combo).map rustTrim
  if parts.length < 2 then none
  else
    match parseAllKeys parts.dropLast with
    | none => none
    | some mods =>
      match parse_key_windows (parts.getLastD []) with
      | none => none
      | some mainCode => some (mods, mainCode)

/-- Emission phase of `send_key_combination_global_windows` (lines 280-356):
the input batch in source order (modifier downs, primary down, primary up,
modifier ups in reverse order). -/
def comboInputs (mods : List Nat) (mainCode : Nat) : List KeyEvent :=
  mods.map KeyEvent.down ++ [KeyEvent.down mainCode, KeyEvent.up mainCode]
    ++ (mods.reverse.map KeyEvent.up)

/-- `key_sender.rs`, `send_key_combination_global_windows` (lines 263-357).
`accepted` abstracts the return value of the one `SendInput` call (how many
of the batched events the OS inserted).  Returns the events actually
submitted to the OS queue and whether the call returned `Ok`: on a parse
failure nothing is emitted; otherwise the call is `Ok` exactly when the OS
accepted the whole batch. -/
def send_key_combination_global_windows (accepted : Nat) (combo : List Char) :
    List KeyEvent × Bool :=
  match parseComboWindows combo with
  | none => ([], false)
  | some (mods, mainCode) =>
    let inputs := comboInputs mods mainCode
    (inputs.take accepted, accepted == inputs.length)

/-- `key_sender.rs`, `send_key_global_windows` (lines 209-260): keys containing
`+` go through the combination path; a single key is resolved and then sent as
two separate `SendInput` calls (`accDown`, `accUp` abstract their results). -/
def send_key_global_windows (accepted accDown accUp : Nat) (key : List Char) :
    List KeyEvent × Bool :=
  if key.contains '+' then send_key_combination_global_windows accepted key
  else
    match parse_key_windows key with
    | none => ([], false)
    | some vk =>
      ((if accDown = 0 then [] else [KeyEvent.down vk])
        ++ (if accUp = 0 then [] else [KeyEvent.up vk]),
       !(accDown == 0 || accUp == 0))

/-! ## src/main.rs: the runner loops -/

/-- Outcome of one `send_key_to_window` call as observed by a runner loop. -/
inductive SendResult where
  | ok
  | err
deriving DecidableEq, Repr

/-- Per-iteration environment of a runner loop: the value of the shared
`running` flag at the top-of-loop check, the process-liveness answer, the
`paused` flag, and the outcome of the `send_key_to_window` call, for
iteration `n`. -/
structure RunEnv where
  running : Nat → Bool
  processAlive : Nat → Bool
  paused : Nat → Bool
  send : Nat → SendResult

/-- The failure-free, never-cancelled, never-paused environment. -/
def goodEnv : RunEnv :=
  { running := fun _ => true
    processAlive := fun _ => true
    paused := fun _ => false
    send := fun _ => SendResult.ok }

/-- Mutable state of `sequential_execution_loop` (lines 276-278). -/
structure SeqState where
  consecutiveFailures : Nat
  currentSequenceIndex : Nat
  cyclesCompleted : Nat
deriving DecidableEq, Repr

/-- Why `sequential_execution_loop` stopped; every constructor corresponds to
one `break` (or the `while` condition turning false), and all of them lead to
the loop returning `Ok(())` in the source. -/
inductive SeqExit where
  | cancelled
  | processClosed
  | cyclesDone
  | tooManyFailures
  | singleRunDone
deriving DecidableEq, Repr

/-- One recorded `send_key_to_window` call: iteration index, key, outcome. -/
abbrev SeqEntry := Nat × List Char × SendResult

def defaultKeyAction : KeyAction := ⟨[], 0⟩

/-- End-of-iteration bookkeeping of `sequential_execution_loop` (lines
327-346): advance the index; on completing the sequence bump
`cycles_completed` and either wrap around (`loop_sequence`) or stop. -/
def seqAdvance (c : Config) (cf : Nat) (st : SeqState) : SeqState × Option SeqExit :=
  let idx := st.currentSequenceIndex + 1
  if c.key_sequence.length ≤ idx then
    if c.loop_sequence then
      (⟨cf, 0, st.cyclesCompleted + 1⟩, none)
    else
      (⟨cf, idx, st.cyclesCompleted + 1⟩, some SeqExit.singleRunDone)
  else
    (⟨cf, idx, st.cyclesCompleted⟩, none)

/-- `main.rs`, `sequential_execution_loop` (lines 275-357), as a fuel-indexed
step function.  Iteration `n` checks `running`, process liveness, the repeat
bound, and `paused` in source order; an unpaused iteration sends the key at
`current_sequence_index`, updates the failure counter (five consecutive
failures break the loop), then advances.  Returns the list of
`send_key_to_window` calls made from this point on, and the exit cause;
`none` means the fuel ran out before the loop exited. -/
def seqRun (c : Config) (env : RunEnv) : Nat → Nat → SeqState →
    Option (List SeqEntry × SeqExit)
  | 0, _, _ => none
  | fuel + 1, n, st =>
    if env.running n = false then some ([], SeqExit.cancelled)
    else if env.processAlive n = false then some ([], SeqExit.processClosed)
    else if 0 < c.repeat_count ∧ c.repeat_count ≤ st.cyclesCompleted then
      some ([], SeqExit.cyclesDone)
    else if env.paused n = true then
      seqRun c env fuel (n + 1) st
    else
      let key := (c.key_sequence.getD st.currentSequenceIndex defaultKeyAction).key
      match env.send n with
      | SendResult.ok =>
        match seqAdvance c 0 st with
        | (st2, none) =>
          (seqRun c env fuel (n + 1) st2).map
            (fun r => ((n, key, SendResult.ok) :: r.1, r.2))
        | (_, some ex) => some ([(n, key, SendResult.ok)], ex)
      | SendResult.err =>
        if 5 ≤ st.consecutiveFailures + 1 then
          some ([(n, key, SendResult.err)], SeqExit.tooManyFailures)
        else
          match seqAdvance c (st.consecutiveFailures + 1) st with
          | (st2, none) =>
            (seqRun c env fuel (n + 1) st2).map
              (fun r => ((n, key, SendResult.err) :: r.1, r.2))
          | (_, some ex) => some ([(n, key, SendResult.err)], ex)

/-- Why `independent_key_task` stopped. -/
inductive IndepExit where
  | stopped
  | processClosed
  | tooManyFailures
deriving DecidableEq, Repr

/-- `main.rs`, `independent_key_task` (lines 229-273), as a fuel-indexed step
function.  Iteration `n` is one timer tick: check `running`, await the tick,
check liveness, and if not paused send the key, resetting the consecutive
failure counter on success and breaking at five consecutive failures. -/
def indepRun (key : List Char) (env : RunEnv) : Nat → Nat → Nat →
    Option (List SeqEntry × IndepExit)
  | 0, _, _ => none
  | fuel + 1, n, cf =>
    if env.running n = false then some ([], IndepExit.stopped)
    else if env.processAlive n = false then some ([], IndepExit.processClosed)
    else if env.paused n = true then indepRun key env fuel (n + 1) cf
    else
      match env.send n with
      | SendResult.ok =>
        (indepRun key env fuel (n + 1) 0).map
          (fun r => ((n, key, SendResult.ok) :: r.1, r.2))
      | SendResult.err =>
        if 5 ≤ cf + 1 then some ([(n, key, SendResult.err)], IndepExit.tooManyFailures)
        else
          (indepRun key env fuel (n + 1) (cf + 1)).map
            (fun r => ((n, key, SendResult.err) :: r.1, r.2))

/-! ## src/main.rs: target acquisition -/

/-- Environment of `find_target_process`: the `running` flag at the `while`
check of attempt `a`, and the result of `find_process_window` at attempt `a`. -/
structure AcqEnv where
  running : Nat → Bool
  findWindow : Nat → Option Nat

/-- `main.rs`, `find_target_process` (lines 168-189), as a fuel-indexed step
function over the attempt counter.  Returns `(lookups, sleeps, result)` where
`lookups` counts `find_process_window` calls, `sleeps` counts the
`sleep(2 s)` calls (taken only when `attempts < max_retries` after the
increment), and `result` is `some window` on success or `none` for the final
`Could not find process` error (which `App::run` propagates with `?`).
The outer `none` means the fuel ran out. -/
def find_target_process (maxRetries : Nat) (env : AcqEnv) : Nat → Nat →
    Option (Nat × Nat × Option Nat)
  | 0, _ => none
  | fuel + 1, attempts =>
    if attempts < maxRetries ∧ env.running attempts = true then
      match env.findWindow attempts with
      | some w => some (1, 0, some w)
      | none =>
        let a2 := attempts + 1
        let s := if a2 < maxRetries then 1 else 0
        (find_target_process maxRetries env fuel a2).map
          (fun r => (r.1 + 1, r.2.1 + s, r.2.2))
    else some (0, 0, none)

/-! ## Derived notions used by the claim statements -/

/-- The keys of the configured sequential steps, in order. -/
def keysOf (c : Config) : List (List Char) :=
  c.key_sequence.map KeyAction.key

/-- The trace of one successful `send_key` per key, starting at iteration
`n`: what a failure-free unpaused run emits. -/
def okSeqTrace : Nat → List (List Char) → List SeqEntry
  | _, [] => []
  | n, k :: ks => (n, k, SendResult.ok) :: okSeqTrace (n + 1) ks

/-- `m` back-to-back copies of a key list: the emissions of `m` complete
passes. -/
def repeatKeys : Nat → List (List Char) → List (List Char)
  | 0, _ => []
  | m + 1, ks => ks ++ repeatKeys m ks

/-- Spec notion for C4: a token naming one of the three modifier keys
(`ctrl`/`control`, `shift`, `alt`), identified by its virtual-key code. -/
def modifierTokenSpec (t : List Char) : Bool :=
  parse_key_windows t == some 0x11 || parse_key_windows t == some 0x10 ||
  parse_key_windows t == some 0x12

/-! ## Concrete instances for witnesses and counterexamples -/

/-- One-step sequence `a`, `loop_sequence = false`, `repeat_count = 2`:
the C1 counterexample configuration. -/
def cexC1 : Config :=
  ⟨"game.exe".toList, [⟨['a'], 100⟩], [], 10, "ctrl+alt+r".toList, false, false, 2⟩

/-- Two-step sequence `1`, `2`, looping, `repeat_count = 2`. -/
def cfgTwoStep : Config :=
  ⟨"game.exe".toList, [⟨['1'], 50⟩, ⟨['2'], 50⟩], [], 10, "ctrl+alt+r".toList,
   false, true, 2⟩

/-- Single-step sequence, `loop_sequence = false`, `repeat_count = 0`. -/
def cfgSinglePass : Config :=
  ⟨"game.exe".toList, [⟨"space".toList, 500⟩], [], 10, "ctrl+alt+r".toList,
   false, false, 0⟩

/-- Single-step looping sequence with unbounded repeats. -/
def cfgLoopForever : Config :=
  ⟨"game.exe".toList, [⟨['x'], 100⟩], [], 10, "ctrl+alt+r".toList,
   false, true, 0⟩

/-- A configuration whose only key token is unknown to the resolver: the C6
counterexample. -/
def cexC6 : Config :=
  ⟨"game.exe".toList, [], [⟨"unknownkey".toList, 1000⟩], 10,
   "ctrl+alt+r".toList, false, true, 0⟩

/-- Environment in which the `running` flag is true only for iterations 0 and
1 (cancellation arrives before iteration 2). -/
def cancelAt2Env : RunEnv :=
  { running := fun n => decide (n < 2)
    processAlive := fun _ => true
    paused := fun _ => false
    send := fun _ => SendResult.ok }

/-- Environment in which every `send_key` call fails. -/
def allErrEnv : RunEnv :=
  { running := fun _ => true
    processAlive := fun _ => true
    paused := fun _ => false
    send := fun _ => SendResult.err }

/-- Acquisition environment: never cancelled, process never found. -/
def neverFoundEnv : AcqEnv :=
  { running := fun _ => true
    findWindow := fun _ => none }

/-! ## Helper lemmas -/

theorem isPrefixOf_append_self (l₁ l₂ : List Char) : l₁.isPrefixOf (l₁ ++ l₂) = true := by
  induction l₁ with
  | nil => simp [List.isPrefixOf]
  | cons a as ih => simp [List.isPrefixOf, ih]

theorem dropLast_append_getLastD {α : Type} (l : List α) (d : α) (h : l ≠ []) :
    l.dropLast ++ [l.getLastD d] = l := by
  induction l generalizing d with
  | nil => cases h rfl
  | cons a as ih =>
    cases as with
    | nil => simp
    | cons b bs => simpa using ih a (by simp)

theorem parseAllKeys_eq_none (ks : List (List Char))
    (h : ∃ t ∈ ks, parse_key_windows t = none) : parseAllKeys ks = none := by
  induction ks with
  | nil => obtain ⟨t, ht, _⟩ := h; cases ht
  | cons k ks ih =>
    obtain ⟨t, ht, hn⟩ := h
    rcases List.mem_cons.mp ht with rfl | hmem
    · simp [parseAllKeys, hn]
    · unfold parseAllKeys
      cases parse_key_windows k with
      | none => rfl
      | some v => rw [ih ⟨t, hmem, hn⟩]; rfl

theorem parseAllKeys_isSome_iff (ks : List (List Char)) :
    (parseAllKeys ks).isSome = true ↔ ∀ t ∈ ks, (parse_key_windows t).isSome = true := by
  induction ks with
  | nil => simp [parseAllKeys]
  | cons k ks ih =>
    unfold parseAllKeys
    cases hk : parse_key_windows k with
    | none =>
      simp only [Option.isSome_none, Bool.false_eq_true, false_iff]
      intro hall
      have := hall k (List.mem_cons_self k ks)
      rw [hk] at this
      simp at this
    | some v =>
      cases hks : parseAllKeys ks with
      | none =>
        simp only [Option.map_none', Option.isSome_none, Bool.false_eq_true, false_iff]
        intro hall
        have : ∀ t ∈ ks, (parse_key_windows t).isSome = true := by
          intro t ht; exact hall t (List.mem_cons_of_mem _ ht)
        rw [← ih, hks] at this
        simp at this
      | some vs =>
        simp only [Option.map_some', Option.isSome_some, true_iff]
        intro t ht
        rcases List.mem_cons.mp ht with rfl | hmem
        · rw [hk]; rfl
        · exact (ih.mp (by rw [hks]; rfl)) t hmem

theorem getLastD_mem {α : Type} (l : List α) (d : α) (h : l ≠ []) : l.getLastD d ∈ l := by
  induction l generalizing d with
  | nil => cases h rfl
  | cons a as ih =>
    by_cases has : as = []
    · subst has; simp
    · have := ih a has
      simp only [List.getLastD_cons]
      exact List.mem_cons_of_mem a this

theorem parseComboWindows_eq_none (combo : List Char)
    (h : ((splitChar '+' combo).map rustTrim).length < 2 ∨
         ∃ t ∈ (splitChar '+' combo).map rustTrim, parse_key_windows t = none) :
    parseComboWindows combo = none := by
  unfold parseComboWindows
  by_cases hlen : ((splitChar '+' combo).map rustTrim).length < 2
  · rw [if_pos hlen]
  · rw [if_neg hlen]
    rcases h with h | ⟨t, ht, hn⟩
    · exact absurd h hlen
    · have hne : (splitChar '+' combo).map rustTrim ≠ [] := by
        intro he; rw [he] at hlen; exact hlen (by simp)
      have hsplit := dropLast_append_getLastD ((splitChar '+' combo).map rustTrim) [] hne
      rw [← hsplit] at ht
      rcases List.mem_append.mp ht with h1 | h2
      · rw [parseAllKeys_eq_none _ ⟨t, h1, hn⟩]
      · rw [List.mem_singleton.mp h2] at hn
        cases parseAllKeys ((splitChar '+' combo).map rustTrim).dropLast with
        | none => rfl
        | some mods => rw [hn]

/-! ## C7: acquisition retry behaviour -/

theorem find_target_step (mr : Nat) (env : AcqEnv) (fuel a : Nat) :
    find_target_process mr env (fuel + 1) a =
      if a < mr ∧ env.running a = true then
        match env.findWindow a with
        | some w => some (1, 0, some w)
        | none =>
          (find_target_process mr env fuel (a + 1)).map
            (fun r => (r.1 + 1, r.2.1 + (if a + 1 < mr then 1 else 0), r.2.2))
      else some (0, 0, none) := rfl

theorem find_target_aux (mr : Nat) : ∀ d a, a + d = mr →
    find_target_process mr neverFoundEnv (d + 1) a = some (d, d - 1, none) := by
  intro d
  induction d with
  | zero =>
    intro a h
    have ha : ¬ (a < mr) := by omega
    rw [find_target_step, if_neg (fun hc => ha hc.1)]
  | succ d ih =>
    intro a h
    have ha : a < mr := by omega
    have hrec := ih (a + 1) (by omega)
    rw [find_target_step, if_pos (⟨ha, rfl⟩ : a < mr ∧ neverFoundEnv.running a = true)]
    show (find_target_process mr neverFoundEnv (d + 1) (a + 1)).map
        (fun r => (r.1 + 1, r.2.1 + (if a + 1 < mr then 1 else 0), r.2.2)) = _
    rw [hrec, Option.map_some']
    by_cases h2 : a + 1 < mr
    · rw [if_pos h2]
      simp only [Option.some.injEq, Prod.mk.injEq]
      exact ⟨trivial, by omega, trivial⟩
    · rw [if_neg h2]
      simp only [Option.some.injEq, Prod.mk.injEq]
      exact ⟨trivial, by omega, trivial⟩

/-- C7: if the target process never appears and the run is not cancelled,
`find_target_process` performs exactly `max_retries` calls to
`find_process_window`, sleeps exactly `max_retries - 1` times (only between
consecutive attempts, never after the last one), and then returns the
process-not-found error (modelled by the `none` result, which `App::run`
propagates with `?` as a fatal error). -/
theorem C7_acquisition_attempts (mr : Nat) :
    find_target_process mr neverFoundEnv (mr + 1) 0 = some (mr, mr - 1, none) :=
  find_target_aux mr mr 0 (by omega)

/-! ## C3: combination event ordering -/

/-- C3: whenever `send_key_combination_global_windows` returns ok on a
combination that resolves to modifiers `M1..Mk` (codes `mods`, in the order
written) and primary `P` (code `mainCode`), the emitted batch is exactly the
`2k + 2` events `down M1, ..., down Mk, down P, up P, up Mk, ..., up M1`,
with the modifiers released in reverse order of pressing. -/
theorem C3_combination_order (combo : List Char) (accepted : Nat) (evs : List KeyEvent)
    (h : send_key_combination_global_windows accepted combo = (evs, true)) :
    ∃ mods mainCode,
      parseComboWindows combo = some (mods, mainCode) ∧
      evs = mods.map KeyEvent.down ++ [KeyEvent.down mainCode, KeyEvent.up mainCode]
            ++ mods.reverse.map KeyEvent.up ∧
      evs.length = 2 * mods.length + 2 := by
  unfold send_key_combination_global_windows at h
  cases hp : parseComboWindows combo with
  | none => rw [hp] at h; simp at h
  | some mp =>
    obtain ⟨mods, mainCode⟩ := mp
    rw [hp] at h
    simp only [Prod.mk.injEq] at h
    obtain ⟨h1, h2⟩ := h
    have hacc : accepted = (comboInputs mods mainCode).length := eq_of_beq h2
    rw [hacc, List.take_length] at h1
    refine ⟨mods, mainCode, rfl, ?_, ?_⟩
    · rw [← h1]; rfl
    · rw [← h1]; simp [comboInputs]; omega

/-- Witness for C3 at the spec's concrete scenario `ctrl+shift+s`
(`VK_CONTROL = 0x11`, `VK_SHIFT = 0x10`, `s = 0x53`). -/
theorem C3_combination_order_witness :
    send_key_combination_global_windows 6 "ctrl+shift+s".toList =
      ([KeyEvent.down 0x11, KeyEvent.down 0x10, KeyEvent.down 0x53,
        KeyEvent.up 0x53, KeyEvent.up 0x10, KeyEvent.up 0x11], true) ∧
    (∃ mods mainCode,
      parseComboWindows "ctrl+shift+s".toList = some (mods, mainCode) ∧
      [KeyEvent.down 0x11, KeyEvent.down 0x10, KeyEvent.down 0x53,
       KeyEvent.up 0x53, KeyEvent.up 0x10, KeyEvent.up 0x11]
        = mods.map KeyEvent.down ++ [KeyEvent.down mainCode, KeyEvent.up mainCode]
          ++ mods.reverse.map KeyEvent.up ∧
      ([KeyEvent.down 0x11, KeyEvent.down 0x10, KeyEvent.down 0x53,
        KeyEvent.up 0x53, KeyEvent.up 0x10, KeyEvent.up 0x11] : List KeyEvent).length
        = 2 * mods.length + 2) :=
  ⟨by decide, C3_combination_order "ctrl+shift+s".toList 6 _ (by decide)⟩

/-! ## C10: no partial emission on resolution failure -/

/-- C10: for every key name containing `+`, the combination is resolved in
full before anything is emitted: if the name splits into fewer than two
tokens, or any trimmed token fails to resolve, `send_key` returns an error
and the list of synthetic events submitted to the OS is empty, regardless of
how the OS would have answered the (never-reached) `SendInput` calls — so no
partial key-down is left pressed. -/
theorem C10_no_partial_on_resolve_failure (key : List Char)
    (accepted accDown accUp : Nat)
    (hplus : key.contains '+' = true)
    (hbad : ((splitChar '+' key).map rustTrim).length < 2 ∨
            ∃ t ∈ (splitChar '+' key).map rustTrim, parse_key_windows t = none) :
    send_key_global_windows accepted accDown accUp key = ([], false) := by
  unfold send_key_global_windows
  rw [hplus]
  simp only [if_true]
  unfold send_key_combination_global_windows
  rw [parseComboWindows_eq_none key hbad]

/-- Witness for C10: `ctrl+qq` contains an unresolvable token, so nothing is
emitted even if the OS would accept events. -/
theorem C10_witness :
    send_key_global_windows 9 1 1 "ctrl+qq".toList = ([], false) :=
  C10_no_partial_on_resolve_failure "ctrl+qq".toList 9 1 1 (by decide)
    (Or.inr ⟨"qq".toList, by decide, by decide⟩)

/-! ## C4: combination parsing (corrected) -/

/-- Counterexample to C4 as stated: the code never checks that prefix tokens
are modifiers nor that the final token is not one.  `a+b` (non-modifier
prefix token `a`) parses successfully to `([0x41], 0x42)`, and `ctrl+shift`
(modifier `shift` in final position) parses successfully to
`([0x11], 0x10)`, instead of being rejected with an invalid-combination
error. -/
theorem C4_counterexample :
    parseComboWindows "a+b".toList = some ([0x41], 0x42) ∧
    modifierTokenSpec ['a'] = false ∧
    parseComboWindows "ctrl+shift".toList = some ([0x11], 0x10) ∧
    modifierTokenSpec "shift".toList = true := by
  refine ⟨by decide, by decide, by decide, by decide⟩

/-- C4 (amended): for every key name, combination parsing succeeds if and
only if the name splits on `+` into at least two tokens and every trimmed
token (prefix tokens and the final token alike) resolves to a known virtual
key; the modifier/non-modifier shape of the tokens is not checked.  Any
other input (fewer than two tokens, or an unknown token) is rejected with
the invalid-combination/unsupported-key error. -/
theorem C4_combo_parse_amended (combo : List Char) :
    (parseComboWindows combo).isSome = true ↔
      (2 ≤ ((splitChar '+' combo).map rustTrim).length ∧
       ∀ t ∈ (splitChar '+' combo).map rustTrim, (parse_key_windows t).isSome = true) := by
  unfold parseComboWindows
  by_cases hlen : ((splitChar '+' combo).map rustTrim).length < 2
  · rw [if_pos hlen]
    simp only [Option.isSome_none, Bool.false_eq_true, false_iff, not_and]
    intro hc
    exact absurd hc (by omega)
  · have hne : (splitChar '+' combo).map rustTrim ≠ [] := by
      intro he; rw [he] at hlen; exact hlen (by simp)
    have hsplit := dropLast_append_getLastD ((splitChar '+' combo).map rustTrim) [] hne
    rw [if_neg hlen]
    constructor
    · intro h
      cases hall : parseAllKeys ((splitChar '+' combo).map rustTrim).dropLast with
      | none => rw [hall] at h; simp at h
      | some mods =>
        cases hlast : parse_key_windows (((splitChar '+' combo).map rustTrim).getLastD []) with
        | none => rw [hall, hlast] at h; simp at h
        | some mc =>
          refine ⟨by omega, ?_⟩
          intro t ht
          rw [← hsplit] at ht
          rcases List.mem_append.mp ht with h1 | h2
          · exact (parseAllKeys_isSome_iff _).mp (by rw [hall]; rfl) t h1
          · rw [List.mem_singleton.mp h2, hlast]; rfl
    · rintro ⟨_, hall⟩
      have hdl : ∀ t ∈ ((splitChar '+' combo).map rustTrim).dropLast,
          (parse_key_windows t).isSome = true := by
        intro t ht
        exact hall t (by rw [← hsplit]; exact List.mem_append_left _ ht)
      have hl : (parse_key_windows (((splitChar '+' combo).map rustTrim).getLastD [])).isSome
          = true :=
        hall _ (getLastD_mem _ [] hne)
      obtain ⟨mods, hm⟩ := Option.isSome_iff_exists.mp ((parseAllKeys_isSome_iff _).mpr hdl)
      obtain ⟨mc, hmc⟩ := Option.isSome_iff_exists.mp hl
      rw [hm, hmc]
      rfl

/-! ## C6: configuration validation (corrected) -/

/-- Counterexample to C6 as stated: a configuration whose only key token is
unknown to the resolver (`unknownkey` resolves to no virtual key) still
passes `Config::validate`, because `validate` never resolves key tokens
(`parse_key_for_validation` is never called by it). -/
theorem C6_counterexample :
    Config.validate cexC6 = true ∧ parse_key_windows "unknownkey".toList = none := by
  exact ⟨by decide, by decide⟩

/-- C6 (amended): `Config::validate` fails if and only if the trimmed process
name is empty, no key is configured at all, both `key_sequence` and
`independent_keys` are populated, `max_retries` is zero, or some configured
entry has an empty (after trimming) key or an interval below 1 ms.  Key
tokens are not resolved here, and duration syntax/negativity is enforced
earlier, at deserialization time by `parse_duration`, not by `validate`. -/
theorem C6_validate_amended (c : Config) :
    c.validate = false ↔
      (rustTrim c.process_name = [] ∨
       (c.key_sequence = [] ∧ c.independent_keys = []) ∨
       (c.key_sequence ≠ [] ∧ c.independent_keys ≠ []) ∨
       c.max_retries = 0 ∨
       (∃ ka ∈ c.key_sequence, rustTrim ka.key = [] ∨ ka.interval_after < 1) ∨
       (∃ ik ∈ c.independent_keys, rustTrim ik.key = [] ∨ ik.interval < 1)) := by
  unfold Config.validate
  split_ifs with h1 h2 h3 h4 h5 h6 <;>
    simp_all [List.any_eq_true, beq_iff_eq, decide_eq_true_eq]

/-! ## Step lemmas for the runner loops -/

theorem seqRun_zero (c : Config) (env : RunEnv) (n : Nat) (st : SeqState) :
    seqRun c env 0 n st = none := rfl

theorem seqRun_cancelled (c : Config) (env : RunEnv) (fuel n : Nat) (st : SeqState)
    (h : env.running n = false) :
    seqRun c env (fuel + 1) n st = some ([], SeqExit.cancelled) := by
  simp [seqRun, h]

theorem seqRun_dead (c : Config) (env : RunEnv) (fuel n : Nat) (st : SeqState)
    (h1 : env.running n = true) (h2 : env.processAlive n = false) :
    seqRun c env (fuel + 1) n st = some ([], SeqExit.processClosed) := by
  simp [seqRun, h1, h2]

theorem seqRun_cycles_exit (c : Config) (env : RunEnv) (fuel n : Nat) (st : SeqState)
    (h1 : env.running n = true) (h2 : env.processAlive n = true)
    (h3 : 0 < c.repeat_count ∧ c.repeat_count ≤ st.cyclesCompleted) :
    seqRun c env (fuel + 1) n st = some ([], SeqExit.cyclesDone) := by
  simp [seqRun, h1, h2, h3]

theorem seqRun_paused (c : Config) (env : RunEnv) (fuel n : Nat) (st : SeqState)
    (h1 : env.running n = true) (h2 : env.processAlive n = true)
    (h3 : ¬ (0 < c.repeat_count ∧ c.repeat_count ≤ st.cyclesCompleted))
    (h4 : env.paused n = true) :
    seqRun c env (fuel + 1) n st = seqRun c env fuel (n + 1) st := by
  simp [seqRun, h1, h2, h3, h4]

theorem seqRun_step_ok_cont (c : Config) (env : RunEnv) (fuel n : Nat) (st st2 : SeqState)
    (h1 : env.running n = true) (h2 : env.processAlive n = true)
    (h3 : ¬ (0 < c.repeat_count ∧ c.repeat_count ≤ st.cyclesCompleted))
    (h4 : env.paused n = false) (h5 : env.send n = SendResult.ok)
    (hadv : seqAdvance c 0 st = (st2, none)) :
    seqRun c env (fuel + 1) n st =
      (seqRun c env fuel (n + 1) st2).map
        (fun r => ((n, (c.key_sequence.getD st.currentSequenceIndex defaultKeyAction).key,
          SendResult.ok) :: r.1, r.2)) := by
  simp [seqRun, h1, h2, h3, h4, h5, hadv]

theorem seqRun_step_ok_exit (c : Config) (env : RunEnv) (fuel n : Nat) (st st2 : SeqState)
    (ex : SeqExit)
    (h1 : env.running n = true) (h2 : env.processAlive n = true)
    (h3 : ¬ (0 < c.repeat_count ∧ c.repeat_count ≤ st.cyclesCompleted))
    (h4 : env.paused n = false) (h5 : env.send n = SendResult.ok)
    (hadv : seqAdvance c 0 st = (st2, some ex)) :
    seqRun c env (fuel + 1) n st =
      some ([(n, (c.key_sequence.getD st.currentSequenceIndex defaultKeyAction).key,
        SendResult.ok)], ex) := by
  simp [seqRun, h1, h2, h3, h4, h5, hadv]

theorem seqRun_step_err_break (c : Config) (env : RunEnv) (fuel n : Nat) (st : SeqState)
    (h1 : env.running n = true) (h2 : env.processAlive n = true)
    (h3 : ¬ (0 < c.repeat_count ∧ c.repeat_count ≤ st.cyclesCompleted))
    (h4 : env.paused n = false) (h5 : env.send n = SendResult.err)
    (hcf : 5 ≤ st.consecutiveFailures + 1) :
    seqRun c env (fuel + 1) n st =
      some ([(n, (c.key_sequence.getD st.currentSequenceIndex defaultKeyAction).key,
        SendResult.err)], SeqExit.tooManyFailures) := by
  simp [seqRun, h1, h2, h3, h4, h5, hcf]

theorem seqRun_step_err_cont (c : Config) (env : RunEnv) (fuel n : Nat) (st st2 : SeqState)
    (h1 : env.running n = true) (h2 : env.processAlive n = true)
    (h3 : ¬ (0 < c.repeat_count ∧ c.repeat_count ≤ st.cyclesCompleted))
    (h4 : env.paused n = false) (h5 : env.send n = SendResult.err)
    (hcf : ¬ 5 ≤ st.consecutiveFailures + 1)
    (hadv : seqAdvance c (st.consecutiveFailures + 1) st = (st2, none)) :
    seqRun c env (fuel + 1) n st =
      (seqRun c env fuel (n + 1) st2).map
        (fun r => ((n, (c.key_sequence.getD st.currentSequenceIndex defaultKeyAction).key,
          SendResult.err) :: r.1, r.2)) := by
  simp [seqRun, h1, h2, h3, h4, h5, hcf, hadv]

theorem seqRun_step_err_exit (c : Config) (env : RunEnv) (fuel n : Nat) (st st2 : SeqState)
    (ex : SeqExit)
    (h1 : env.running n = true) (h2 : env.processAlive n = true)
    (h3 : ¬ (0 < c.repeat_count ∧ c.repeat_count ≤ st.cyclesCompleted))
    (h4 : env.paused n = false) (h5 : env.send n = SendResult.err)
    (hcf : ¬ 5 ≤ st.consecutiveFailures + 1)
    (hadv : seqAdvance c (st.consecutiveFailures + 1) st = (st2, some ex)) :
    seqRun c env (fuel + 1) n st =
      some ([(n, (c.key_sequence.getD st.currentSequenceIndex defaultKeyAction).key,
        SendResult.err)], ex) := by
  simp [seqRun, h1, h2, h3, h4, h5, hcf, hadv]

theorem indepRun_zero (key : List Char) (env : RunEnv) (n cf : Nat) :
    indepRun key env 0 n cf = none := rfl

theorem indepRun_stopped (key : List Char) (env : RunEnv) (fuel n cf : Nat)
    (h : env.running n = false) :
    indepRun key env (fuel + 1) n cf = some ([], IndepExit.stopped) := by
  simp [indepRun, h]

theorem indepRun_dead (key : List Char) (env : RunEnv) (fuel n cf : Nat)
    (h1 : env.running n = true) (h2 : env.processAlive n = false) :
    indepRun key env (fuel + 1) n cf = some ([], IndepExit.processClosed) := by
  simp [indepRun, h1, h2]

theorem indepRun_paused (key : List Char) (env : RunEnv) (fuel n cf : Nat)
    (h1 : env.running n = true) (h2 : env.processAlive n = true)
    (h4 : env.paused n = true) :
    indepRun key env (fuel + 1) n cf = indepRun key env fuel (n + 1) cf := by
  simp [indepRun, h1, h2, h4]

theorem indepRun_step_ok (key : List Char) (env : RunEnv) (fuel n cf : Nat)
    (h1 : env.running n = true) (h2 : env.processAlive n = true)
    (h4 : env.paused n = false) (h5 : env.send n = SendResult.ok) :
    indepRun key env (fuel + 1) n cf =
      (indepRun key env fuel (n + 1) 0).map
        (fun r => ((n, key, SendResult.ok) :: r.1, r.2)) := by
  simp [indepRun, h1, h2, h4, h5]

theorem indepRun_step_err_break (key : List Char) (env : RunEnv) (fuel n cf : Nat)
    (h1 : env.running n = true) (h2 : env.processAlive n = true)
    (h4 : env.paused n = false) (h5 : env.send n = SendResult.err)
    (hcf : 5 ≤ cf + 1) :
    indepRun key env (fuel + 1) n cf =
      some ([(n, key, SendResult.err)], IndepExit.tooManyFailures) := by
  simp [indepRun, h1, h2, h4, h5, hcf]

theorem indepRun_step_err_cont (key : List Char) (env : RunEnv) (fuel n cf : Nat)
    (h1 : env.running n = true) (h2 : env.processAlive n = true)
    (h4 : env.paused n = false) (h5 : env.send n = SendResult.err)
    (hcf : ¬ 5 ≤ cf + 1) :
    indepRun key env (fuel + 1) n cf =
      (indepRun key env fuel (n + 1) (cf + 1)).map
        (fun r => ((n, key, SendResult.err) :: r.1, r.2)) := by
  simp [indepRun, h1, h2, h4, h5, hcf]

/-! ## Trace bookkeeping lemmas -/

theorem okSeqTrace_length (n : Nat) (ks : List (List Char)) :
    (okSeqTrace n ks).length = ks.length := by
  induction ks generalizing n with
  | nil => rfl
  | cons k ks ih => simp [okSeqTrace, ih]

theorem okSeqTrace_append (xs : List (List Char)) :
    ∀ ys n, okSeqTrace n (xs ++ ys) = okSeqTrace n xs ++ okSeqTrace (n + xs.length) ys := by
  induction xs with
  | nil => intro ys n; simp [okSeqTrace]
  | cons x xs ih =>
    intro ys n
    show (n, x, SendResult.ok) :: okSeqTrace (n + 1) (xs ++ ys)
        = (n, x, SendResult.ok) :: (okSeqTrace (n + 1) xs ++ okSeqTrace (n + (xs.length + 1)) ys)
    rw [ih]
    rw [show n + 1 + xs.length = n + (xs.length + 1) by omega]

theorem repeatKeys_length (ks : List (List Char)) :
    ∀ m, (repeatKeys m ks).length = m * ks.length := by
  intro m
  induction m with
  | zero => simp [repeatKeys]
  | succ m ih => simp [repeatKeys, ih]; ring

theorem keysOf_length (c : Config) : (keysOf c).length = c.key_sequence.length := by
  simp [keysOf]

theorem keysOf_drop_cons (c : Config) (i : Nat) (h : i < c.key_sequence.length) :
    (keysOf c).drop i =
      (c.key_sequence.getD i defaultKeyAction).key :: (keysOf c).drop (i + 1) := by
  have hk : i < (keysOf c).length := by rwa [keysOf_length]
  rw [List.drop_eq_getElem_cons hk]
  congr 1
  rw [List.getD_eq_getElem _ _ h]
  simp [keysOf]

/-! ## One pass of the sequential loop under the failure-free environment -/

theorem seq_pass_loop (c : Config) (hloop : c.loop_sequence = true) :
    ∀ j fuel n i cnt, i + j = c.key_sequence.length → 0 < j →
      (c.repeat_count = 0 ∨ cnt < c.repeat_count) →
      seqRun c goodEnv (j + fuel) n ⟨0, i, cnt⟩ =
        (seqRun c goodEnv fuel (n + j) ⟨0, 0, cnt + 1⟩).map
          (fun r => (okSeqTrace n ((keysOf c).drop i) ++ r.1, r.2)) := by
  intro j
  induction j with
  | zero => intro fuel n i cnt _ hj; exact absurd hj (by omega)
  | succ j ih =>
    intro fuel n i cnt hij _ hrc
    have hiL : i < c.key_sequence.length := by omega
    have h3 : ¬ (0 < c.repeat_count ∧ c.repeat_count ≤ cnt) := by
      rcases hrc with h | h <;> omega
    have hdrop := keysOf_drop_cons c i hiL
    by_cases hj0 : j = 0
    · subst hj0
      rw [show 0 + 1 + fuel = fuel + 1 by omega]
      rw [show n + (0 + 1) = n + 1 by omega]
      have hadv : seqAdvance c 0 ⟨0, i, cnt⟩ = (⟨0, 0, cnt + 1⟩, none) := by
        unfold seqAdvance
        have : c.key_sequence.length ≤ i + 1 := by omega
        simp [this, hloop]
      rw [seqRun_step_ok_cont c goodEnv fuel n ⟨0, i, cnt⟩ ⟨0, 0, cnt + 1⟩ rfl rfl h3 rfl rfl hadv]
      have hdropend : (keysOf c).drop (i + 1) = [] := by
        apply List.drop_eq_nil_of_le
        rw [keysOf_length]
        omega
      rw [hdrop, hdropend]
      rfl
    · rw [show j + 1 + fuel = (j + fuel) + 1 by omega]
      have hadv : seqAdvance c 0 ⟨0, i, cnt⟩ = (⟨0, i + 1, cnt⟩, none) := by
        unfold seqAdvance
        have : ¬ (c.key_sequence.length ≤ i + 1) := by omega
        simp [this]
      rw [seqRun_step_ok_cont c goodEnv (j + fuel) n ⟨0, i, cnt⟩ ⟨0, i + 1, cnt⟩ rfl rfl h3 rfl rfl hadv]
      rw [ih fuel (n + 1) (i + 1) cnt (by omega) (by omega) hrc]
      rw [Option.map_map]
      rw [show n + 1 + j = n + (j + 1) by omega]
      apply congrArg (fun f => Option.map f (seqRun c goodEnv fuel (n + (j + 1)) ⟨0, 0, cnt + 1⟩))
      funext r
      simp only [Function.comp_apply]
      rw [hdrop]
      simp [okSeqTrace]

theorem seq_pass_single (c : Config) (hloop : c.loop_sequence = false) :
    ∀ j fuel n i cnt, i + j = c.key_sequence.length → 0 < j →
      (c.repeat_count = 0 ∨ cnt < c.repeat_count) →
      seqRun c goodEnv (j + fuel) n ⟨0, i, cnt⟩ =
        some (okSeqTrace n ((keysOf c).drop i), SeqExit.singleRunDone) := by
  intro j
  induction j with
  | zero => intro fuel n i cnt _ hj; exact absurd hj (by omega)
  | succ j ih =>
    intro fuel n i cnt hij _ hrc
    have hiL : i < c.key_sequence.length := by omega
    have h3 : ¬ (0 < c.repeat_count ∧ c.repeat_count ≤ cnt) := by
      rcases hrc with h | h <;> omega
    have hdrop := keysOf_drop_cons c i hiL
    by_cases hj0 : j = 0
    · subst hj0
      rw [show 0 + 1 + fuel = fuel + 1 by omega]
      have hadv : seqAdvance c 0 ⟨0, i, cnt⟩ = (⟨0, i + 1, cnt + 1⟩, some SeqExit.singleRunDone) := by
        unfold seqAdvance
        have : c.key_sequence.length ≤ i + 1 := by omega
        simp [this, hloop]
      rw [seqRun_step_ok_exit c goodEnv fuel n ⟨0, i, cnt⟩ ⟨0, i + 1, cnt + 1⟩
        SeqExit.singleRunDone rfl rfl h3 rfl rfl hadv]
      have hdropend : (keysOf c).drop (i + 1) = [] := by
        apply List.drop_eq_nil_of_le
        rw [keysOf_length]
        omega
      rw [hdrop, hdropend]
      rfl
    · rw [show j + 1 + fuel = (j + fuel) + 1 by omega]
      have hadv : seqAdvance c 0 ⟨0, i, cnt⟩ = (⟨0, i + 1, cnt⟩, none) := by
        unfold seqAdvance
        have : ¬ (c.key_sequence.length ≤ i + 1) := by omega
        simp [this]
      rw [seqRun_step_ok_cont c goodEnv (j + fuel) n ⟨0, i, cnt⟩ ⟨0, i + 1, cnt⟩ rfl rfl h3 rfl rfl hadv]
      rw [ih fuel (n + 1) (i + 1) cnt (by omega) (by omega) hrc]
      rw [hdrop]
      rfl

theorem seq_cycles (c : Config) (hloop : c.loop_sequence = true)
    (hne : c.key_sequence ≠ []) (hrcpos : 0 < c.repeat_count) :
    ∀ m n cnt, cnt + m = c.repeat_count →
      seqRun c goodEnv (m * c.key_sequence.length + 1) n ⟨0, 0, cnt⟩ =
        some (okSeqTrace n (repeatKeys m (keysOf c)), SeqExit.cyclesDone) := by
  intro m
  induction m with
  | zero =>
    intro n cnt hcnt
    have h3 : 0 < c.repeat_count ∧ c.repeat_count ≤ cnt := ⟨hrcpos, by omega⟩
    rw [show 0 * c.key_sequence.length + 1 = 0 + 1 by omega]
    rw [seqRun_cycles_exit c goodEnv 0 n ⟨0, 0, cnt⟩ rfl rfl h3]
    rfl
  | succ m ih =>
    intro n cnt hcnt
    have hL : 0 < c.key_sequence.length := List.length_pos.mpr hne
    rw [show (m + 1) * c.key_sequence.length + 1
        = c.key_sequence.length + (m * c.key_sequence.length + 1) by ring]
    rw [seq_pass_loop c hloop c.key_sequence.length (m * c.key_sequence.length + 1) n 0 cnt
      (by omega) hL (Or.inr (by omega))]
    rw [ih (n + c.key_sequence.length) (cnt + 1) (by omega)]
    simp only [Option.map_some']
    rw [List.drop_zero]
    show some (okSeqTrace n (keysOf c) ++ okSeqTrace (n + c.key_sequence.length)
      (repeatKeys m (keysOf c)), SeqExit.cyclesDone) = _
    rw [show (repeatKeys (m + 1) (keysOf c)) = keysOf c ++ repeatKeys m (keysOf c) from rfl]
    rw [okSeqTrace_append]
    rw [keysOf_length]

/-! ## C1: sequential repeat count (corrected) -/

/-- Counterexample to C1 as stated: with `repeat_count = 2` but
`loop_sequence = false` (one step `a`), the loop exits at the
end-of-sequence branch after a single pass, emitting 1 keystroke instead of
`repeat_count * len(steps) = 2`.  The `repeat_count > 0` bound is honoured
only when `loop_sequence` is true. -/
theorem C1_counterexample :
    seqRun cexC1 goodEnv 5 0 ⟨0, 0, 0⟩ =
      some ([(0, ['a'], SendResult.ok)], SeqExit.singleRunDone) ∧
    cexC1.repeat_count * cexC1.key_sequence.length = 2 ∧
    ([(0, ['a'], SendResult.ok)] : List SeqEntry).length = 1 ∧ (1 : Nat) ≠ 2 :=
  ⟨by decide, by decide, by decide, by decide⟩

/-- C1 (amended): in sequential mode, absent cancellation, pauses and
injection failures, (a) when `loop_forever = true` and `repeat_count = k > 0`
the runner emits exactly `k * len(steps)` keystrokes — `k` complete in-order
passes over the steps — and then exits ok at the repeat-bound check; (b) when
`loop_forever = false` the runner emits exactly `len(steps)` keystrokes (one
pass) and exits ok regardless of `repeat_count`; in particular
`repeat_count = 1` runs the sequence exactly once in both cases. -/
theorem C1_sequential_repeat_amended (c : Config) (hne : c.key_sequence ≠ []) :
    (c.loop_sequence = true → 0 < c.repeat_count →
      seqRun c goodEnv (c.repeat_count * c.key_sequence.length + 1) 0 ⟨0, 0, 0⟩ =
        some (okSeqTrace 0 (repeatKeys c.repeat_count (keysOf c)), SeqExit.cyclesDone) ∧
      (okSeqTrace 0 (repeatKeys c.repeat_count (keysOf c))).length =
        c.repeat_count * c.key_sequence.length) ∧
    (c.loop_sequence = false →
      seqRun c goodEnv (c.key_sequence.length + 1) 0 ⟨0, 0, 0⟩ =
        some (okSeqTrace 0 (keysOf c), SeqExit.singleRunDone) ∧
      (okSeqTrace 0 (keysOf c)).length = c.key_sequence.length) := by
  constructor
  · intro hloop hrc
    constructor
    · exact seq_cycles c hloop hne hrc c.repeat_count 0 0 (by omega)
    · rw [okSeqTrace_length, repeatKeys_length, keysOf_length]
  · intro hloop
    constructor
    · have h := seq_pass_single c hloop c.key_sequence.length 1 0 0 0
        (by omega) (List.length_pos.mpr hne) (Nat.eq_zero_or_pos c.repeat_count)
      rw [List.drop_zero] at h
      exact h
    · rw [okSeqTrace_length, keysOf_length]

/-- Witness for C1 at the two-step looping configuration
(`steps = [1, 2]`, `repeat_count = 2`): emissions `1, 2, 1, 2`. -/
theorem C1_witness :
    seqRun cfgTwoStep goodEnv 5 0 ⟨0, 0, 0⟩ =
      some ([(0, ['1'], SendResult.ok), (1, ['2'], SendResult.ok),
             (2, ['1'], SendResult.ok), (3, ['2'], SendResult.ok)], SeqExit.cyclesDone) := by
  have h := ((C1_sequential_repeat_amended cfgTwoStep (by decide)).1 rfl (by decide)).1
  exact h

/-! ## C2: single pass -/

/-- C2: in sequential mode with `loop_forever = false` and `repeat_count = 0`,
absent cancellation, pauses and injection failures, the runner emits exactly
`len(steps)` keystrokes, one per configured step in configured order, and
then exits ok at the end-of-sequence branch. -/
theorem C2_single_pass (c : Config) (hne : c.key_sequence ≠ [])
    (hloop : c.loop_sequence = false) (hrc : c.repeat_count = 0) :
    seqRun c goodEnv (c.key_sequence.length + 1) 0 ⟨0, 0, 0⟩ =
      some (okSeqTrace 0 (keysOf c), SeqExit.singleRunDone) ∧
    (okSeqTrace 0 (keysOf c)).length = c.key_sequence.length := by
  constructor
  · have h := seq_pass_single c hloop c.key_sequence.length 1 0 0 0
      (by omega) (List.length_pos.mpr hne) (Or.inl hrc)
    rw [List.drop_zero] at h
    exact h
  · rw [okSeqTrace_length, keysOf_length]

/-- Witness for C2 at the one-step configuration with key `space`. -/
theorem C2_witness :
    seqRun cfgSinglePass goodEnv 2 0 ⟨0, 0, 0⟩ =
      some ([(0, "space".toList, SendResult.ok)], SeqExit.singleRunDone) := by
  have h := (C2_single_pass cfgSinglePass (by decide) rfl rfl).1
  exact h

/-! ## C8: no keystroke after cancellation -/

theorem seq_sends_running (c : Config) (env : RunEnv) :
    ∀ fuel n st tr ex, seqRun c env fuel n st = some (tr, ex) →
      ∀ e ∈ tr, env.running e.1 = true := by
  intro fuel
  induction fuel with
  | zero =>
    intro n st tr ex h
    rw [seqRun_zero] at h
    exact absurd h (by simp)
  | succ fuel ih =>
    intro n st tr ex h
    cases hr : env.running n with
    | false =>
      rw [seqRun_cancelled c env fuel n st hr] at h
      simp only [Option.some.injEq, Prod.mk.injEq] at h
      obtain ⟨h1, -⟩ := h
      intro e he
      rw [← h1] at he
      cases he
    | true =>
      cases ha : env.processAlive n with
      | false =>
        rw [seqRun_dead c env fuel n st hr ha] at h
        simp only [Option.some.injEq, Prod.mk.injEq] at h
        obtain ⟨h1, -⟩ := h
        intro e he
        rw [← h1] at he
        cases he
      | true =>
        by_cases h3 : 0 < c.repeat_count ∧ c.repeat_count ≤ st.cyclesCompleted
        · rw [seqRun_cycles_exit c env fuel n st hr ha h3] at h
          simp only [Option.some.injEq, Prod.mk.injEq] at h
          obtain ⟨h1, -⟩ := h
          intro e he
          rw [← h1] at he
          cases he
        · cases hp : env.paused n with
          | true =>
            rw [seqRun_paused c env fuel n st hr ha h3 hp] at h
            exact ih (n + 1) st tr ex h
          | false =>
            cases hs : env.send n with
            | ok =>
              rcases hadv : seqAdvance c 0 st with ⟨st2, oex⟩
              cases oex with
              | none =>
                rw [seqRun_step_ok_cont c env fuel n st st2 hr ha h3 hp hs hadv] at h
                cases hrec : seqRun c env fuel (n + 1) st2 with
                | none => rw [hrec] at h; exact absurd h (by simp)
                | some r =>
                  rw [hrec] at h
                  simp only [Option.map_some', Option.some.injEq, Prod.mk.injEq] at h
                  obtain ⟨h1, -⟩ := h
                  intro e he
                  rw [← h1] at he
                  rcases List.mem_cons.mp he with rfl | hmem
                  · exact hr
                  · exact ih (n + 1) st2 r.1 r.2 (by rw [hrec]) e hmem
              | some ex2 =>
                rw [seqRun_step_ok_exit c env fuel n st st2 ex2 hr ha h3 hp hs hadv] at h
                simp only [Option.some.injEq, Prod.mk.injEq] at h
                obtain ⟨h1, -⟩ := h
                intro e he
                rw [← h1] at he
                rcases List.mem_cons.mp he with rfl | hmem
                · exact hr
                · cases hmem
            | err =>
              by_cases hcf : 5 ≤ st.consecutiveFailures + 1
              · rw [seqRun_step_err_break c env fuel n st hr ha h3 hp hs hcf] at h
                simp only [Option.some.injEq, Prod.mk.injEq] at h
                obtain ⟨h1, -⟩ := h
                intro e he
                rw [← h1] at he
                rcases List.mem_cons.mp he with rfl | hmem
                · exact hr
                · cases hmem
              · rcases hadv : seqAdvance c (st.consecutiveFailures + 1) st with ⟨st2, oex⟩
                cases oex with
                | none =>
                  rw [seqRun_step_err_cont c env fuel n st st2 hr ha h3 hp hs hcf hadv] at h
                  cases hrec : seqRun c env fuel (n + 1) st2 with
                  | none => rw [hrec] at h; exact absurd h (by simp)
                  | some r =>
                    rw [hrec] at h
                    simp only [Option.map_some', Option.some.injEq, Prod.mk.injEq] at h
                    obtain ⟨h1, -⟩ := h
                    intro e he
                    rw [← h1] at he
                    rcases List.mem_cons.mp he with rfl | hmem
                    · exact hr
                    · exact ih (n + 1) st2 r.1 r.2 (by rw [hrec]) e hmem
                | some ex2 =>
                  rw [seqRun_step_err_exit c env fuel n st st2 ex2 hr ha h3 hp hs hcf hadv] at h
                  simp only [Option.some.injEq, Prod.mk.injEq] at h
                  obtain ⟨h1, -⟩ := h
                  intro e he
                  rw [← h1] at he
                  rcases List.mem_cons.mp he with rfl | hmem
                  · exact hr
                  · cases hmem

theorem indep_sends_running (key : List Char) (env : RunEnv) :
    ∀ fuel n cf tr ex, indepRun key env fuel n cf = some (tr, ex) →
      ∀ e ∈ tr, env.running e.1 = true := by
  intro fuel
  induction fuel with
  | zero =>
    intro n cf tr ex h
    rw [indepRun_zero] at h
    exact absurd h (by simp)
  | succ fuel ih =>
    intro n cf tr ex h
    cases hr : env.running n with
    | false =>
      rw [indepRun_stopped key env fuel n cf hr] at h
      simp only [Option.some.injEq, Prod.mk.injEq] at h
      obtain ⟨h1, -⟩ := h
      intro e he
      rw [← h1] at he
      cases he
    | true =>
      cases ha : env.processAlive n with
      | false =>
        rw [indepRun_dead key env fuel n cf hr ha] at h
        simp only [Option.some.injEq, Prod.mk.injEq] at h
        obtain ⟨h1, -⟩ := h
        intro e he
        rw [← h1] at he
        cases he
      | true =>
        cases hp : env.paused n with
        | true =>
          rw [indepRun_paused key env fuel n cf hr ha hp] at h
          exact ih (n + 1) cf tr ex h
        | false =>
          cases hs : env.send n with
          | ok =>
            rw [indepRun_step_ok key env fuel n cf hr ha hp hs] at h
            cases hrec : indepRun key env fuel (n + 1) 0 with
            | none => rw [hrec] at h; exact absurd h (by simp)
            | some r =>
              rw [hrec] at h
              simp only [Option.map_some', Option.some.injEq, Prod.mk.injEq] at h
              obtain ⟨h1, -⟩ := h
              intro e he
              rw [← h1] at he
              rcases List.mem_cons.mp he with rfl | hmem
              · exact hr
              · exact ih (n + 1) 0 r.1 r.2 (by rw [hrec]) e hmem
          | err =>
            by_cases hcf : 5 ≤ cf + 1
            · rw [indepRun_step_err_break key env fuel n cf hr ha hp hs hcf] at h
              simp only [Option.some.injEq, Prod.mk.injEq] at h
              obtain ⟨h1, -⟩ := h
              intro e he
              rw [← h1] at he
              rcases List.mem_cons.mp he with rfl | hmem
              · exact hr
              · cases hmem
            · rw [indepRun_step_err_cont key env fuel n cf hr ha hp hs hcf] at h
              cases hrec : indepRun key env fuel (n + 1) (cf + 1) with
              | none => rw [hrec] at h; exact absurd h (by simp)
              | some r =>
                rw [hrec] at h
                simp only [Option.map_some', Option.some.injEq, Prod.mk.injEq] at h
                obtain ⟨h1, -⟩ := h
                intro e he
                rw [← h1] at he
                rcases List.mem_cons.mp he with rfl | hmem
                · exact hr
                · exact ih (n + 1) (cf + 1) r.1 r.2 (by rw [hrec]) e hmem

/-- C8: in every mode, no `send_key` call happens after the `cancelled` flag
is observed: (a) every call recorded in a sequential-loop trace was made at
an iteration whose top-of-loop check saw `running = true`; (b) the same for
every independent timer task; (c) a sequential-loop iteration whose
top-of-loop check sees `running = false` exits at once with no further
calls; (d) the same for an independent timer task.  Since the source sets
`cancelled` once and never clears it, (a)-(d) say no keystroke is emitted
after cancellation is observed, and each loop exits at its next top-of-loop
check without calling `send_key` again. -/
theorem C8_no_send_after_cancel :
    (∀ (c : Config) (env : RunEnv) (fuel n : Nat) (st : SeqState) (tr : List SeqEntry)
       (ex : SeqExit), seqRun c env fuel n st = some (tr, ex) →
       ∀ e ∈ tr, env.running e.1 = true) ∧
    (∀ (key : List Char) (env : RunEnv) (fuel n cf : Nat) (tr : List SeqEntry)
       (ex : IndepExit), indepRun key env fuel n cf = some (tr, ex) →
       ∀ e ∈ tr, env.running e.1 = true) ∧
    (∀ (c : Config) (env : RunEnv) (fuel n : Nat) (st : SeqState),
       env.running n = false → seqRun c env (fuel + 1) n st = some ([], SeqExit.cancelled)) ∧
    (∀ (key : List Char) (env : RunEnv) (fuel n cf : Nat),
       env.running n = false → indepRun key env (fuel + 1) n cf = some ([], IndepExit.stopped)) :=
  ⟨fun c env fuel n st tr ex h => seq_sends_running c env fuel n st tr ex h,
   fun key env fuel n cf tr ex h => indep_sends_running key env fuel n cf tr ex h,
   fun c env fuel n st h => seqRun_cancelled c env fuel n st h,
   fun key env fuel n cf h => indepRun_stopped key env fuel n cf h⟩

/-- Witness for C8: cancellation before iteration 2 stops both runners with
exactly the two keystrokes sent while `running` was still true. -/
theorem C8_witness :
    cancelAt2Env.running 0 = true ∧
    seqRun cfgLoopForever cancelAt2Env 4 0 ⟨0, 0, 0⟩ =
      some ([(0, ['x'], SendResult.ok), (1, ['x'], SendResult.ok)], SeqExit.cancelled) ∧
    indepRun ['x'] cancelAt2Env 4 0 0 =
      some ([(0, ['x'], SendResult.ok), (1, ['x'], SendResult.ok)], IndepExit.stopped) ∧
    seqRun cfgLoopForever cancelAt2Env 1 2 ⟨0, 0, 0⟩ = some ([], SeqExit.cancelled) ∧
    indepRun ['x'] cancelAt2Env 1 2 0 = some ([], IndepExit.stopped) := by
  refine ⟨?_, by decide, by decide, ?_, ?_⟩
  · exact C8_no_send_after_cancel.1 cfgLoopForever cancelAt2Env 4 0 ⟨0, 0, 0⟩
      [(0, ['x'], SendResult.ok), (1, ['x'], SendResult.ok)] SeqExit.cancelled (by decide)
      (0, ['x'], SendResult.ok) (by decide)
  · exact C8_no_send_after_cancel.2.2.1 cfgLoopForever cancelAt2Env 0 2 ⟨0, 0, 0⟩ (by decide)
  · exact C8_no_send_after_cancel.2.2.2 ['x'] cancelAt2Env 0 2 0 (by decide)

/-! ## C9: consecutive-failure budget -/

theorem getLast?_cons_of_ne {α : Type} (a : α) (l : List α) (h : l ≠ []) :
    (a :: l).getLast? = l.getLast? := by
  cases l with
  | nil => cases h rfl
  | cons b bs => simp [List.getLast?_cons_cons]

theorem seqAdvance_cf (c : Config) (cf : Nat) (st : SeqState) :
    (seqAdvance c cf st).1.consecutiveFailures = cf := by
  unfold seqAdvance
  by_cases h1 : c.key_sequence.length ≤ st.currentSequenceIndex + 1 <;>
    by_cases h2 : c.loop_sequence = true <;>
    simp [h1, h2]

theorem seqAdvance_exit (c : Config) (cf : Nat) (st : SeqState) (ex : SeqExit)
    (h : (seqAdvance c cf st).2 = some ex) : ex = SeqExit.singleRunDone := by
  unfold seqAdvance at h
  by_cases h1 : c.key_sequence.length ≤ st.currentSequenceIndex + 1 <;>
    by_cases h2 : c.loop_sequence = true <;>
    simp [h1, h2, eq_comm] at h
  exact h

theorem seq_tooMany_aux (c : Config) (env : RunEnv) :
    ∀ fuel n st tr, st.consecutiveFailures ≤ 4 →
      seqRun c env fuel n st = some (tr, SeqExit.tooManyFailures) →
      ∃ pre suf, tr = pre ++ suf ∧ (∀ e ∈ suf, e.2.2 = SendResult.err) ∧
        (pre = [] → suf.length + st.consecutiveFailures = 5) ∧
        (pre ≠ [] → suf.length = 5 ∧
          ∃ e2, pre.getLast? = some e2 ∧ e2.2.2 = SendResult.ok) := by
  intro fuel
  induction fuel with
  | zero =>
    intro n st tr hcf h
    rw [seqRun_zero] at h
    exact absurd h (by simp)
  | succ fuel ih =>
    intro n st tr hcf h
    cases hr : env.running n with
    | false =>
      rw [seqRun_cancelled c env fuel n st hr] at h
      simp at h
    | true =>
      cases ha : env.processAlive n with
      | false =>
        rw [seqRun_dead c env fuel n st hr ha] at h
        simp at h
      | true =>
        by_cases h3 : 0 < c.repeat_count ∧ c.repeat_count ≤ st.cyclesCompleted
        · rw [seqRun_cycles_exit c env fuel n st hr ha h3] at h
          simp at h
        · cases hp : env.paused n with
          | true =>
            rw [seqRun_paused c env fuel n st hr ha h3 hp] at h
            exact ih (n + 1) st tr hcf h
          | false =>
            cases hs : env.send n with
            | ok =>
              rcases hadv : seqAdvance c 0 st with ⟨st2, oex⟩
              cases oex with
              | none =>
                rw [seqRun_step_ok_cont c env fuel n st st2 hr ha h3 hp hs hadv] at h
                cases hrec : seqRun c env fuel (n + 1) st2 with
                | none => rw [hrec] at h; exact absurd h (by simp)
                | some r =>
                  rw [hrec] at h
                  simp only [Option.map_some', Option.some.injEq, Prod.mk.injEq] at h
                  obtain ⟨h1, h2⟩ := h
                  have h0 : st2.consecutiveFailures = 0 := by
                    have hx := seqAdvance_cf c 0 st
                    rw [hadv] at hx
                    exact hx
                  obtain ⟨pre, suf, htr, herr, hpre0, hpre1⟩ :=
                    ih (n + 1) st2 r.1 (by omega) (by rw [hrec, ← h2])
                  refine ⟨(n, (c.key_sequence.getD st.currentSequenceIndex
                      defaultKeyAction).key, SendResult.ok) :: pre, suf, ?_, herr, ?_, ?_⟩
                  · rw [← h1, htr]; rfl
                  · intro hc; exact absurd hc (by simp)
                  · rintro -
                    constructor
                    · by_cases hpre : pre = []
                      · have := hpre0 hpre; omega
                      · exact (hpre1 hpre).1
                    · by_cases hpre : pre = []
                      · subst hpre
                        exact ⟨(n, (c.key_sequence.getD st.currentSequenceIndex
                            defaultKeyAction).key, SendResult.ok), rfl, rfl⟩
                      · obtain ⟨e2, he2, hok⟩ := (hpre1 hpre).2
                        exact ⟨e2, by rw [getLast?_cons_of_ne _ pre hpre]; exact he2, hok⟩
              | some ex2 =>
                rw [seqRun_step_ok_exit c env fuel n st st2 ex2 hr ha h3 hp hs hadv] at h
                simp only [Option.some.injEq, Prod.mk.injEq] at h
                obtain ⟨-, h2⟩ := h
                rw [seqAdvance_exit c 0 st ex2 (by rw [hadv])] at h2
                exact absurd h2 (by simp)
            | err =>
              by_cases hcf5 : 5 ≤ st.consecutiveFailures + 1
              · rw [seqRun_step_err_break c env fuel n st hr ha h3 hp hs hcf5] at h
                simp only [Option.some.injEq, Prod.mk.injEq] at h
                obtain ⟨h1, -⟩ := h
                refine ⟨[], [(n, (c.key_sequence.getD st.currentSequenceIndex
                    defaultKeyAction).key, SendResult.err)], by rw [← h1]; rfl, ?_, ?_, ?_⟩
                · intro e he
                  rw [List.mem_singleton.mp he]
                · rintro -
                  simp only [List.length_singleton]
                  omega
                · intro hc; exact absurd rfl hc
              · rcases hadv : seqAdvance c (st.consecutiveFailures + 1) st with ⟨st2, oex⟩
                cases oex with
                | none =>
                  rw [seqRun_step_err_cont c env fuel n st st2 hr ha h3 hp hs hcf5 hadv] at h
                  cases hrec : seqRun c env fuel (n + 1) st2 with
                  | none => rw [hrec] at h; exact absurd h (by simp)
                  | some r =>
                    rw [hrec] at h
                    simp only [Option.map_some', Option.some.injEq, Prod.mk.injEq] at h
                    obtain ⟨h1, h2⟩ := h
                    have h0 : st2.consecutiveFailures = st.consecutiveFailures + 1 := by
                      have hx := seqAdvance_cf c (st.consecutiveFailures + 1) st
                      rw [hadv] at hx
                      exact hx
                    obtain ⟨pre, suf, htr, herr, hpre0, hpre1⟩ :=
                      ih (n + 1) st2 r.1 (by omega) (by rw [hrec, ← h2])
                    by_cases hpre : pre = []
                    · subst hpre
                      refine ⟨[], (n, (c.key_sequence.getD st.currentSequenceIndex
                          defaultKeyAction).key, SendResult.err) :: suf, ?_, ?_, ?_, ?_⟩
                      · rw [← h1, htr]; rfl
                      · intro e he
                        rcases List.mem_cons.mp he with rfl | hm
                        · rfl
                        · exact herr e hm
                      · rintro -
                        have := hpre0 rfl
                        simp only [List.length_cons]
                        omega
                      · intro hc; exact absurd rfl hc
                    · refine ⟨(n, (c.key_sequence.getD st.currentSequenceIndex
                          defaultKeyAction).key, SendResult.err) :: pre, suf, ?_, herr, ?_, ?_⟩
                      · rw [← h1, htr]; rfl
                      · intro hc; exact absurd hc (by simp)
                      · rintro -
                        refine ⟨(hpre1 hpre).1, ?_⟩
                        obtain ⟨e2, he2, hok⟩ := (hpre1 hpre).2
                        exact ⟨e2, by rw [getLast?_cons_of_ne _ pre hpre]; exact he2, hok⟩
                | some ex2 =>
                  rw [seqRun_step_err_exit c env fuel n st st2 ex2 hr ha h3 hp hs hcf5 hadv] at h
                  simp only [Option.some.injEq, Prod.mk.injEq] at h
                  obtain ⟨-, h2⟩ := h
                  rw [seqAdvance_exit c (st.consecutiveFailures + 1) st ex2 (by rw [hadv])] at h2
                  exact absurd h2 (by simp)

theorem indep_tooMany_aux (key : List Char) (env : RunEnv) :
    ∀ fuel n cf tr, cf ≤ 4 →
      indepRun key env fuel n cf = some (tr, IndepExit.tooManyFailures) →
      ∃ pre suf, tr = pre ++ suf ∧ (∀ e ∈ suf, e.2.2 = SendResult.err) ∧
        (pre = [] → suf.length + cf = 5) ∧
        (pre ≠ [] → suf.length = 5 ∧
          ∃ e2, pre.getLast? = some e2 ∧ e2.2.2 = SendResult.ok) := by
  intro fuel
  induction fuel with
  | zero =>
    intro n cf tr hcf h
    rw [indepRun_zero] at h
    exact absurd h (by simp)
  | succ fuel ih =>
    intro n cf tr hcf h
    cases hr : env.running n with
    | false =>
      rw [indepRun_stopped key env fuel n cf hr] at h
      simp at h
    | true =>
      cases ha : env.processAlive n with
      | false =>
        rw [indepRun_dead key env fuel n cf hr ha] at h
        simp at h
      | true =>
        cases hp : env.paused n with
        | true =>
          rw [indepRun_paused key env fuel n cf hr ha hp] at h
          exact ih (n + 1) cf tr hcf h
        | false =>
          cases hs : env.send n with
          | ok =>
            rw [indepRun_step_ok key env fuel n cf hr ha hp hs] at h
            cases hrec : indepRun key env fuel (n + 1) 0 with
            | none => rw [hrec] at h; exact absurd h (by simp)
            | some r =>
              rw [hrec] at h
              simp only [Option.map_some', Option.some.injEq, Prod.mk.injEq] at h
              obtain ⟨h1, h2⟩ := h
              obtain ⟨pre, suf, htr, herr, hpre0, hpre1⟩ :=
                ih (n + 1) 0 r.1 (by omega) (by rw [hrec, ← h2])
              refine ⟨(n, key, SendResult.ok) :: pre, suf, ?_, herr, ?_, ?_⟩
              · rw [← h1, htr]; rfl
              · intro hc; exact absurd hc (by simp)
              · rintro -
                constructor
                · by_cases hpre : pre = []
                  · have := hpre0 hpre; omega
                  · exact (hpre1 hpre).1
                · by_cases hpre : pre = []
                  · subst hpre
                    exact ⟨(n, key, SendResult.ok), rfl, rfl⟩
                  · obtain ⟨e2, he2, hok⟩ := (hpre1 hpre).2
                    exact ⟨e2, by rw [getLast?_cons_of_ne _ pre hpre]; exact he2, hok⟩
          | err =>
            by_cases hcf5 : 5 ≤ cf + 1
            · rw [indepRun_step_err_break key env fuel n cf hr ha hp hs hcf5] at h
              simp only [Option.some.injEq, Prod.mk.injEq] at h
              obtain ⟨h1, -⟩ := h
              refine ⟨[], [(n, key, SendResult.err)], by rw [← h1]; rfl, ?_, ?_, ?_⟩
              · intro e he
                rw [List.mem_singleton.mp he]
              · rintro -
                simp only [List.length_singleton]
                omega
              · intro hc; exact absurd rfl hc
            · rw [indepRun_step_err_cont key env fuel n cf hr ha hp hs hcf5] at h
              cases hrec : indepRun key env fuel (n + 1) (cf + 1) with
              | none => rw [hrec] at h; exact absurd h (by simp)
              | some r =>
                rw [hrec] at h
                simp only [Option.map_some', Option.some.injEq, Prod.mk.injEq] at h
                obtain ⟨h1, h2⟩ := h
                obtain ⟨pre, suf, htr, herr, hpre0, hpre1⟩ :=
                  ih (n + 1) (cf + 1) r.1 (by omega) (by rw [hrec, ← h2])
                by_cases hpre : pre = []
                · subst hpre
                  refine ⟨[], (n, key, SendResult.err) :: suf, ?_, ?_, ?_, ?_⟩
                  · rw [← h1, htr]; rfl
                  · intro e he
                    rcases List.mem_cons.mp he with rfl | hm
                    · rfl
                    · exact herr e hm
                  · rintro -
                    have := hpre0 rfl
                    simp only [List.length_cons]
                    omega
                  · intro hc; exact absurd rfl hc
                · refine ⟨(n, key, SendResult.err) :: pre, suf, ?_, herr, ?_, ?_⟩
                  · rw [← h1, htr]; rfl
                  · intro hc; exact absurd hc (by simp)
                  · rintro -
                    refine ⟨(hpre1 hpre).1, ?_⟩
                    obtain ⟨e2, he2, hok⟩ := (hpre1 hpre).2
                    exact ⟨e2, by rw [getLast?_cons_of_ne _ pre hpre]; exact he2, hok⟩

/-- C9: in both modes, consecutive `send_key` failures are counted per runner
(per timer task in independent mode), every success resets the counter, and
the runner/timer terminates with the too-many-failures error exactly on
reaching five adjacent failures: whenever a run that starts with a zero
counter exits with `tooManyFailures`, its trace ends with exactly five
consecutive failed calls, and the call just before those five (when one
exists) succeeded — so fewer than five adjacent failures never cause this
termination. -/
theorem C9_failure_budget :
    (∀ (c : Config) (env : RunEnv) (fuel : Nat) (tr : List SeqEntry),
       seqRun c env fuel 0 ⟨0, 0, 0⟩ = some (tr, SeqExit.tooManyFailures) →
       ∃ pre suf, tr = pre ++ suf ∧ suf.length = 5 ∧
         (∀ e ∈ suf, e.2.2 = SendResult.err) ∧
         (pre = [] ∨ ∃ e2, pre.getLast? = some e2 ∧ e2.2.2 = SendResult.ok)) ∧
    (∀ (key : List Char) (env : RunEnv) (fuel : Nat) (tr : List SeqEntry),
       indepRun key env fuel 0 0 = some (tr, IndepExit.tooManyFailures) →
       ∃ pre suf, tr = pre ++ suf ∧ suf.length = 5 ∧
         (∀ e ∈ suf, e.2.2 = SendResult.err) ∧
         (pre = [] ∨ ∃ e2, pre.getLast? = some e2 ∧ e2.2.2 = SendResult.ok)) := by
  constructor
  · intro c env fuel tr h
    obtain ⟨pre, suf, htr, herr, hpre0, hpre1⟩ :=
      seq_tooMany_aux c env fuel 0 ⟨0, 0, 0⟩ tr (by decide) h
    by_cases hpre : pre = []
    · exact ⟨pre, suf, htr, by have := hpre0 hpre; simpa using this, herr, Or.inl hpre⟩
    · exact ⟨pre, suf, htr, (hpre1 hpre).1, herr, Or.inr (hpre1 hpre).2⟩
  · intro key env fuel tr h
    obtain ⟨pre, suf, htr, herr, hpre0, hpre1⟩ :=
      indep_tooMany_aux key env fuel 0 0 tr (by omega) h
    by_cases hpre : pre = []
    · exact ⟨pre, suf, htr, by have := hpre0 hpre; omega, herr, Or.inl hpre⟩
    · exact ⟨pre, suf, htr, (hpre1 hpre).1, herr, Or.inr (hpre1 hpre).2⟩

/-- Witness for C9: with every `send_key` call failing, both runners stop
with the too-many-failures error after exactly five calls. -/
theorem C9_witness :
    (∃ pre suf,
      ([(0, ['x'], SendResult.err), (1, ['x'], SendResult.err), (2, ['x'], SendResult.err),
        (3, ['x'], SendResult.err), (4, ['x'], SendResult.err)] : List SeqEntry)
        = pre ++ suf ∧ suf.length = 5 ∧
      (∀ e ∈ suf, e.2.2 = SendResult.err) ∧
      (pre = [] ∨ ∃ e2, pre.getLast? = some e2 ∧ e2.2.2 = SendResult.ok)) ∧
    (∃ pre suf,
      ([(0, ['x'], SendResult.err), (1, ['x'], SendResult.err), (2, ['x'], SendResult.err),
        (3, ['x'], SendResult.err), (4, ['x'], SendResult.err)] : List SeqEntry)
        = pre ++ suf ∧ suf.length = 5 ∧
      (∀ e ∈ suf, e.2.2 = SendResult.err) ∧
      (pre = [] ∨ ∃ e2, pre.getLast? = some e2 ∧ e2.2.2 = SendResult.ok)) :=
  ⟨C9_failure_budget.1 cfgLoopForever allErrEnv 6 _ (by decide),
   C9_failure_budget.2 ['x'] allErrEnv 6 _ (by decide)⟩

/-! ## C5: duration round-trip (corrected) -/

theorem parse_duration_eq (s : List Char) :
    parse_duration s =
      (if rustEndsWith (rustToLowercase (rustTrim s)) ['m', 's'] then
        parseU64 ((rustToLowercase (rustTrim s)).take
          ((rustToLowercase (rustTrim s)).length - 2))
      else if rustEndsWith (rustToLowercase (rustTrim s)) ['s'] then
        (parseU64 ((rustToLowercase (rustTrim s)).take
          ((rustToLowercase (rustTrim s)).length - 1))).map (fun secs => secs * 1000)
      else if rustEndsWith (rustToLowercase (rustTrim s)) ['m'] then
        (parseU64 ((rustToLowercase (rustTrim s)).take
          ((rustToLowercase (rustTrim s)).length - 1))).map
            (fun mins => (mins * 60 % 2 ^ 64) * 1000)
      else parseU64 s) := rfl

theorem isAsciiDigit_digitChar (d : Nat) (h : d < 10) :
    isAsciiDigit (digitChar d) = true := by
  interval_cases d <;> decide

theorem digitChar_toNat (d : Nat) (h : d < 10) : (digitChar d).toNat = 48 + d := by
  interval_cases d <;> decide

theorem digit_not_ws (c : Char) (h : isAsciiDigit c = true) :
    isRustWhitespace c = false := by
  simp only [isAsciiDigit, decide_eq_true_eq] at h
  simp only [isRustWhitespace, Bool.or_eq_false_iff, Bool.and_eq_false_iff,
    decide_eq_false_iff_not, beq_eq_false_iff_ne, ne_eq]
  omega

theorem digit_lower_id (c : Char) (h : isAsciiDigit c = true) :
    asciiToLower c = c := by
  simp only [isAsciiDigit, decide_eq_true_eq] at h
  unfold asciiToLower
  rw [if_neg]
  omega

theorem toDigitsRevFuel_digits : ∀ fuel n, ∀ c ∈ toDigitsRevFuel fuel n,
    isAsciiDigit c = true := by
  intro fuel
  induction fuel with
  | zero => intro n c hc; cases hc
  | succ fuel ih =>
    intro n c hc
    unfold toDigitsRevFuel at hc
    by_cases h0 : n = 0
    · rw [if_pos h0] at hc; cases hc
    · rw [if_neg h0] at hc
      rcases List.mem_cons.mp hc with rfl | hm
      · exact isAsciiDigit_digitChar (n % 10) (Nat.mod_lt n (by omega))
      · exact ih (n / 10) c hm

theorem valLE_toDigitsRevFuel : ∀ fuel n, n ≤ fuel →
    valLE (toDigitsRevFuel fuel n) = n := by
  intro fuel
  induction fuel with
  | zero =>
    intro n h
    have h0 : n = 0 := by omega
    subst h0
    rfl
  | succ fuel ih =>
    intro n h
    unfold toDigitsRevFuel
    by_cases h0 : n = 0
    · rw [if_pos h0]; simp [valLE, h0]
    · rw [if_neg h0]
      simp only [valLE]
      rw [ih (n / 10) (by omega)]
      rw [digitChar_toNat (n % 10) (Nat.mod_lt n (by omega))]
      omega

theorem natToString_ne_nil (n : Nat) : natToString n ≠ [] := by
  unfold natToString
  by_cases h0 : n = 0
  · rw [if_pos h0]; simp
  · rw [if_neg h0]
    simp only [ne_eq, List.reverse_eq_nil_iff]
    cases n with
    | zero => exact absurd rfl h0
    | succ m =>
      show toDigitsRevFuel (m + 1) (m + 1) ≠ []
      unfold toDigitsRevFuel
      rw [if_neg (by omega : ¬ (m + 1 = 0))]
      simp

theorem natToString_digits (n : Nat) : ∀ c ∈ natToString n, isAsciiDigit c = true := by
  intro c hc
  unfold natToString at hc
  by_cases h0 : n = 0
  · rw [if_pos h0] at hc
    rw [List.mem_singleton.mp hc]
    decide
  · rw [if_neg h0] at hc
    rw [List.mem_reverse] at hc
    exact toDigitsRevFuel_digits n n c hc

theorem foldVal_reverse : ∀ (l : List Char) (acc : Nat),
    (l.reverse).foldl (fun a c => 10 * a + (c.toNat - 48)) acc
      = acc * 10 ^ l.length + valLE l := by
  intro l
  induction l with
  | nil => intro acc; simp [valLE]
  | cons c cs ih =>
    intro acc
    simp only [List.reverse_cons, List.foldl_append, List.foldl_cons, List.foldl_nil,
      List.length_cons, valLE]
    rw [ih acc]
    ring

theorem foldVal_le (l : List Char) : ∀ acc : Nat,
    acc ≤ l.foldl (fun a c => 10 * a + (c.toNat - 48)) acc := by
  induction l with
  | nil => intro acc; simp
  | cons c cs ih =>
    intro acc
    simp only [List.foldl_cons]
    calc acc ≤ 10 * acc + (c.toNat - 48) := by omega
    _ ≤ _ := ih _

theorem parseDigitsU64_eq (l : List Char) : ∀ acc : Nat,
    (∀ c ∈ l, isAsciiDigit c = true) →
    l.foldl (fun a c => 10 * a + (c.toNat - 48)) acc < 2 ^ 64 →
    parseDigitsU64 l acc = some (l.foldl (fun a c => 10 * a + (c.toNat - 48)) acc) := by
  induction l with
  | nil => intro acc _ _; rfl
  | cons c cs ih =>
    intro acc hd hlt
    simp only [List.foldl_cons] at hlt
    have hacc2 : 10 * acc + (c.toNat - 48) < 2 ^ 64 := by
      have := foldVal_le cs (10 * acc + (c.toNat - 48))
      omega
    unfold parseDigitsU64
    rw [if_pos (hd c (List.mem_cons_self c cs)), if_pos hacc2]
    rw [ih _ (fun x hx => hd x (List.mem_cons_of_mem c hx)) hlt]
    simp only [List.foldl_cons]

theorem parseU64_natToString (n : Nat) (h : n < 2 ^ 64) :
    parseU64 (natToString n) = some n := by
  have hne := natToString_ne_nil n
  have hd := natToString_digits n
  have hval : (natToString n).foldl (fun a c => 10 * a + (c.toNat - 48)) 0 = n := by
    unfold natToString
    by_cases h0 : n = 0
    · rw [if_pos h0, h0]
      decide
    · rw [if_neg h0]
      rw [foldVal_reverse]
      rw [valLE_toDigitsRevFuel n n (le_refl n)]
      simp
  cases hns : natToString n with
  | nil => exact absurd hns hne
  | cons c cs =>
    have hcdig : isAsciiDigit c = true := hd c (by rw [hns]; exact List.mem_cons_self c cs)
    have hcne : ¬ (c = '+') := by
      intro hc; rw [hc] at hcdig; exact absurd hcdig (by decide)
    have hd2 : ∀ x ∈ c :: cs, isAsciiDigit x = true := by
      rw [← hns]; exact hd
    have hval2 : (c :: cs).foldl (fun a x => 10 * a + (x.toNat - 48)) 0 = n := by
      rw [← hns]; exact hval
    show (if c = '+' then (if cs = [] then none else parseDigitsU64 cs 0)
      else parseDigitsU64 (c :: cs) 0) = some n
    rw [if_neg hcne, parseDigitsU64_eq (c :: cs) 0 hd2 (by rw [hval2]; exact h), hval2]

theorem dropWhile_eq_self (p : Char → Bool) (l : List Char)
    (h : ∀ c ∈ l, p c = false) : l.dropWhile p = l := by
  cases l with
  | nil => rfl
  | cons a as => simp [List.dropWhile_cons, h a (List.mem_cons_self a as)]

theorem rustTrim_id (s : List Char) (h : ∀ c ∈ s, isRustWhitespace c = false) :
    rustTrim s = s := by
  unfold rustTrim
  rw [dropWhile_eq_self _ s h]
  rw [dropWhile_eq_self _ s.reverse (fun c hc => h c (List.mem_reverse.mp hc))]
  exact List.reverse_reverse s

theorem map_id_of (s : List Char) (f : Char → Char) (h : ∀ c ∈ s, f c = c) :
    s.map f = s := by
  induction s with
  | nil => rfl
  | cons c cs ih =>
    simp only [List.map_cons]
    rw [h c (List.mem_cons_self c cs), ih (fun x hx => h x (List.mem_cons_of_mem c hx))]

/-- Characters of a canonical duration string: decimal digits and the
suffix letters `m`, `s`. -/
theorem canon_pre (v : List Char)
    (hv : ∀ c ∈ v, isAsciiDigit c = true ∨ c = 'm' ∨ c = 's') :
    rustToLowercase (rustTrim v) = v := by
  have hws : ∀ c ∈ v, isRustWhitespace c = false := by
    intro c hc
    rcases hv c hc with h | rfl | rfl
    · exact digit_not_ws c h
    · decide
    · decide
  have hlow : ∀ c ∈ v, asciiToLower c = c := by
    intro c hc
    rcases hv c hc with h | rfl | rfl
    · exact digit_lower_id c h
    · decide
    · decide
  rw [rustTrim_id v hws]
  exact map_id_of v asciiToLower hlow

theorem canon_digits_suffix (N : Nat) (suf : List Char)
    (hs : ∀ c ∈ suf, c = 'm' ∨ c = 's') :
    ∀ c ∈ natToString N ++ suf, isAsciiDigit c = true ∨ c = 'm' ∨ c = 's' := by
  intro c hc
  rcases List.mem_append.mp hc with h | h
  · exact Or.inl (natToString_digits N c h)
  · exact Or.inr (hs c h)

theorem rustEndsWith_append (xs suf : List Char) :
    rustEndsWith (xs ++ suf) suf = true := by
  unfold rustEndsWith
  rw [List.reverse_append]
  exact isPrefixOf_append_self suf.reverse xs.reverse

theorem not_endsWith_ms_of_digits_s (ds : List Char) (hne : ds ≠ [])
    (hd : ∀ c ∈ ds, isAsciiDigit c = true) :
    rustEndsWith (ds ++ ['s']) ['m', 's'] = false := by
  unfold rustEndsWith
  rw [List.reverse_append]
  show List.isPrefixOf ['s', 'm'] ('s' :: ds.reverse) = false
  cases hr : ds.reverse with
  | nil => exact absurd (List.reverse_eq_nil_iff.mp hr) hne
  | cons c cs =>
    have hcd : isAsciiDigit c = true := by
      apply hd c
      rw [← List.mem_reverse, hr]
      exact List.mem_cons_self c cs
    have hcm : (('m' : Char) == c) = false := by
      by_cases hcc : c = 'm'
      · rw [hcc] at hcd; exact absurd hcd (by decide)
      · simp only [beq_eq_false_iff_ne, ne_eq]
        exact fun hx => hcc hx.symm
    simp [List.isPrefixOf, hcm]

theorem not_endsWith_ms_of_digits_m (ds : List Char) :
    rustEndsWith (ds ++ ['m']) ['m', 's'] = false := by
  unfold rustEndsWith
  rw [List.reverse_append]
  show List.isPrefixOf ['s', 'm'] ('m' :: ds.reverse) = false
  simp [List.isPrefixOf]

theorem not_endsWith_s_of_digits_m (ds : List Char) :
    rustEndsWith (ds ++ ['m']) ['s'] = false := by
  unfold rustEndsWith
  rw [List.reverse_append]
  show List.isPrefixOf ['s'] ('m' :: ds.reverse) = false
  simp [List.isPrefixOf]

theorem take_prefix_append (ds suf : List Char) (k : Nat) (hk : suf.length = k) :
    (ds ++ suf).take ((ds ++ suf).length - k) = ds := by
  subst hk
  rw [List.length_append]
  rw [show ds.length + suf.length - suf.length = ds.length by omega]
  exact List.take_left ds suf

/-- Counterexample to C5 as stated: the canonical set in the claim puts no
lower bound on `N` in the `Nm` family, but `0m` parses to a zero duration
which re-serializes as `0ms`, not `0m`. -/
theorem C5_counterexample :
    parse_duration ['0', 'm'] = some 0 ∧
    duration_to_string 0 = ['0', 'm', 's'] ∧
    (['0', 'm', 's'] : List Char) ≠ ['0', 'm'] :=
  ⟨by decide, by decide, by decide⟩

/-- C5 (amended): re-serialization inverts parsing on the canonical duration
strings `Nms` with `N % 1000 ≠ 0`, `Ns` with `N % 60 ≠ 0`, and `Nm` with
`N ≥ 1` (the `N = 0` member of the `Nm` family is the lone exception), for
every representable `N` (`u64` range; for `Nm` the seconds value `N * 60`
must also fit in `u64`, as the source multiplies in `u64`). -/
theorem C5_roundtrip_amended (N : Nat) :
    (N % 1000 ≠ 0 → N < 2 ^ 64 →
      (parse_duration (natToString N ++ ['m', 's'])).map duration_to_string
        = some (natToString N ++ ['m', 's'])) ∧
    (N % 60 ≠ 0 → N < 2 ^ 64 →
      (parse_duration (natToString N ++ ['s'])).map duration_to_string
        = some (natToString N ++ ['s'])) ∧
    (1 ≤ N → N * 60 < 2 ^ 64 →
      (parse_duration (natToString N ++ ['m'])).map duration_to_string
        = some (natToString N ++ ['m'])) := by
  refine ⟨?_, ?_, ?_⟩
  · intro hmod hlt
    have hsuf : ∀ c ∈ (['m', 's'] : List Char), c = 'm' ∨ c = 's' := by
      intro c hc
      rcases List.mem_cons.mp hc with rfl | hc2
      · exact Or.inl rfl
      · exact Or.inr (List.mem_singleton.mp hc2)
    have hcanon : rustToLowercase (rustTrim (natToString N ++ ['m', 's']))
        = natToString N ++ ['m', 's'] :=
      canon_pre _ (canon_digits_suffix N ['m', 's'] hsuf)
    rw [parse_duration_eq, hcanon]
    rw [rustEndsWith_append (natToString N) ['m', 's']]
    rw [if_pos rfl]
    rw [take_prefix_append (natToString N) ['m', 's'] 2 rfl]
    rw [parseU64_natToString N hlt]
    simp only [Option.map_some', Option.some.injEq]
    have c1 : ¬ (60000 ≤ N ∧ N % 60000 = 0) := by omega
    have c2 : ¬ (1000 ≤ N ∧ N % 1000 = 0) := by omega
    unfold duration_to_string
    rw [if_neg c1, if_neg c2]
  · intro hmod hlt
    have hcanon : rustToLowercase (rustTrim (natToString N ++ ['s']))
        = natToString N ++ ['s'] :=
      canon_pre _ (canon_digits_suffix N ['s']
        (by intro c hc; exact Or.inr (List.mem_singleton.mp hc)))
    rw [parse_duration_eq, hcanon]
    rw [not_endsWith_ms_of_digits_s (natToString N) (natToString_ne_nil N)
      (natToString_digits N)]
    rw [rustEndsWith_append (natToString N) ['s']]
    simp only [Bool.false_eq_true, if_false, if_pos]
    rw [take_prefix_append (natToString N) ['s'] 1 rfl]
    rw [parseU64_natToString N hlt]
    simp only [Option.map_some', Option.some.injEq]
    have c1 : ¬ (60000 ≤ N * 1000 ∧ N * 1000 % 60000 = 0) := by omega
    have c2 : 1000 ≤ N * 1000 ∧ N * 1000 % 1000 = 0 := by omega
    unfold duration_to_string
    rw [if_neg c1, if_pos c2]
    rw [show N * 1000 / 1000 = N by omega]
  · intro hpos hlt
    have hcanon : rustToLowercase (rustTrim (natToString N ++ ['m']))
        = natToString N ++ ['m'] :=
      canon_pre _ (canon_digits_suffix N ['m']
        (by intro c hc; exact Or.inl (List.mem_singleton.mp hc)))
    rw [parse_duration_eq, hcanon]
    rw [not_endsWith_ms_of_digits_m (natToString N)]
    rw [not_endsWith_s_of_digits_m (natToString N)]
    rw [rustEndsWith_append (natToString N) ['m']]
    simp only [Bool.false_eq_true, if_false, if_pos]
    rw [take_prefix_append (natToString N) ['m'] 1 rfl]
    rw [parseU64_natToString N (by omega)]
    simp only [Option.map_some', Option.some.injEq]
    rw [Nat.mod_eq_of_lt hlt]
    have c1 : 60000 ≤ N * 60 * 1000 ∧ N * 60 * 1000 % 60000 = 0 := by
      constructor <;> omega
    unfold duration_to_string
    rw [if_pos c1]
    rw [show N * 60 * 1000 / 60000 = N by omega]

/-- Witness for C5 at `N = 7`: `7ms`, `7s` and `7m` all round-trip. -/
theorem C5_witness :
    (parse_duration "7ms".toList).map duration_to_string = some "7ms".toList ∧
    (parse_duration "7s".toList).map duration_to_string = some "7s".toList ∧
    (parse_duration "7m".toList).map duration_to_string = some "7m".toList := by
  refine ⟨?_, ?_, ?_⟩
  · exact (C5_roundtrip_amended 7).1 (by decide) (by decide)
  · exact (C5_roundtrip_amended 7).2.1 (by decide) (by decide)
  · exact (C5_roundtrip_amended 7).2.2 (by decide) (by decide)

end PKS
